import Mathlib

/-!
Verification development for the Character Reversi engine
(`game_core.js` and `unified_ai_engine.js`).

The board is an 8x8 grid of cells holding 0 (empty), 1 (black) or -1
(white).  JavaScript out-of-bounds reads (`undefined`) are modelled by the
sentinel value 2, which compares unequal to every disc value that occurs
for sides 1 and -1, mirroring `undefined === x` being false.  The wall
clock is modelled by the index of the `_isTimeUp` sample: the JS clock is
monotone, so the sequence of boolean samples seen by a run is fully
described by the index of the first `true` sample (`deadline`); a run
where the budget never expires is `deadline = none`.
-/

namespace Reversi

/-- An 8x8 board: `0` empty, `1` black, `-1` white (`game_core.js`).
The 2D array is stored row-major as 64 cells; all access goes through
`bget`/`bset`, which model `board[r][c]`. -/
abbrev Board := { l : List Int // l.length = 64 }

/-- `GameCore.isValidBounds`. -/
def bounded (r c : Int) : Prop := 0 ≤ r ∧ r < 8 ∧ 0 ≤ c ∧ c < 8

instance (r c : Int) : Decidable (bounded r c) := by unfold bounded; infer_instance

/-- Read `board[r][c]`; out of bounds yields the sentinel `2`
(JS `undefined`, which is `!==` any disc value). -/
def bget (b : Board) (r c : Int) : Int :=
  if bounded r c then ((b.val.get? (8 * r.toNat + c.toNat)).getD 2) else 2

/-- Write `board[r][c] = v`; out of bounds is a no-op (never reached on
the legal-move paths the claims quantify over). -/
def bset (b : Board) (r c v : Int) : Board :=
  if bounded r c then ⟨b.val.set (8 * r.toNat + c.toNat) v, by
    rw [List.length_set]; exact b.2⟩
  else b

/-- The 8 compass directions, in source order (`game_core.js`). -/
def dirList : List (Int × Int) :=
  [(-1, -1), (-1, 0), (-1, 1), (0, -1), (0, 1), (1, -1), (1, 0), (1, 1)]

/-- The while loop of `GameCore.checkDirection`: advance over opposing
discs, then succeed iff at least one was passed and an own disc follows.
Fuel 16 strictly exceeds the longest possible in-bounds run (at most 8). -/
def scanRun (b : Board) (turn dr dc : Int) : Nat → Int → Int → Bool → Bool
  | 0, _, _, _ => false
  | f + 1, nr, nc, hasOpp =>
    if bounded nr nc ∧ bget b nr nc = -turn then
      scanRun b turn dr dc f (nr + dr) (nc + dc) true
    else
      hasOpp && decide (bounded nr nc) && decide (bget b nr nc = turn)

/-- `GameCore.checkDirection`. -/
def checkDirection (b : Board) (r c dr dc turn : Int) : Bool :=
  scanRun b turn dr dc 16 (r + dr) (c + dc) false

/-- `GameCore.canPlace`. -/
def canPlace (b : Board) (r c turn : Int) : Bool :=
  if bget b r c ≠ 0 then false
  else dirList.any fun d => checkDirection b r c d.1 d.2 turn

/-- A move position as produced by `getValidMoves` (`{r, c}`). -/
structure Pos where
  r : Int
  c : Int
deriving DecidableEq, Repr

/-- `GameCore.getValidMoves`: row-major scan of all cells. -/
def getValidMoves (b : Board) (turn : Int) : List Pos :=
  (List.range 8).flatMap fun (r : Nat) =>
    (List.range 8).filterMap fun (c : Nat) =>
      if canPlace b (r : Int) (c : Int) turn then some ⟨(r : Int), (c : Int)⟩ else none

/-- The flip loop of `GameCore.simulateMove` for one direction: flip
while the (progressively updated) board holds an opposing disc.  The JS
loop has no bounds check; for the sides `±1` it always stops at the own
disc guaranteed by `checkDirection`, which the model reproduces. -/
def flipRun (dr dc turn : Int) : Nat → Board → Int → Int → Board
  | 0, nb, _, _ => nb
  | f + 1, nb, nr, nc =>
    if bget nb nr nc = -turn then
      flipRun dr dc turn f (bset nb nr nc turn) (nr + dr) (nc + dc)
    else nb

/-- `GameCore.simulateMove`: `null` for an illegal move, otherwise the
board with the move placed and every bracketed run flipped. -/
def simulateMove (b : Board) (r c turn : Int) : Option Board :=
  if canPlace b r c turn then
    some <| dirList.foldl
      (fun nb d =>
        if checkDirection b r c d.1 d.2 turn then
          flipRun d.1 d.2 turn 16 nb (r + d.1) (c + d.2)
        else nb)
      (bset b r c turn)
  else none

/-- Number of empty cells (`_countEmpty`). -/
def countEmpty (b : Board) : Nat :=
  ((Finset.univ : Finset (Fin 8 × Fin 8)).filter fun p =>
    bget b (p.1 : Int) (p.2 : Int) = 0).card

/-- Number of occupied cells. -/
def occCount (b : Board) : Nat :=
  ((Finset.univ : Finset (Fin 8 × Fin 8)).filter fun p =>
    bget b (p.1 : Int) (p.2 : Int) ≠ 0).card

/-- Declarative description of a capturing line for `checkDirection`:
`n ≥ 1` opposing discs at offsets `1..n` from `(r, c)` in direction
`(dr, dc)`, immediately followed by an own disc at offset `n + 1`. -/
def opposingRun (b : Board) (r c dr dc turn : Int) (n : Nat) : Prop :=
  (∀ i : Nat, 1 ≤ i → i ≤ n →
    bounded (r + (i : Int) * dr) (c + (i : Int) * dc) ∧
      bget b (r + (i : Int) * dr) (c + (i : Int) * dc) = -turn) ∧
  bounded (r + ((n : Int) + 1) * dr) (c + ((n : Int) + 1) * dc) ∧
  bget b (r + ((n : Int) + 1) * dr) (c + ((n : Int) + 1) * dc) = turn

/-- Build a board from a list of rows (for concrete test positions). -/
def mkBoard (l : List (List Int)) : Board :=
  ⟨(List.range 64).map fun i => (((l.get? (i / 8)).getD []).get? (i % 8)).getD 0, by simp⟩

/-- The standard starting position (`GameCore.reset`). -/
def startBoard : Board := mkBoard
  [[0, 0, 0, 0, 0, 0, 0, 0],
   [0, 0, 0, 0, 0, 0, 0, 0],
   [0, 0, 0, 0, 0, 0, 0, 0],
   [0, 0, 0, -1, 1, 0, 0, 0],
   [0, 0, 0, 1, -1, 0, 0, 0],
   [0, 0, 0, 0, 0, 0, 0, 0],
   [0, 0, 0, 0, 0, 0, 0, 0],
   [0, 0, 0, 0, 0, 0, 0, 0]]

/-! ### Characterisation of `checkDirection` (towards C2) -/

theorem scanRun_iff (b : Board) (turn dr dc : Int) (hturn : turn ≠ 0) :
    ∀ (f : Nat) (nr nc : Int) (hasOpp : Bool),
      scanRun b turn dr dc f nr nc hasOpp = true ↔
        ∃ k : Nat, k + 1 ≤ f ∧
          (∀ i : Nat, i < k →
            bounded (nr + (i : Int) * dr) (nc + (i : Int) * dc) ∧
              bget b (nr + (i : Int) * dr) (nc + (i : Int) * dc) = -turn) ∧
          bounded (nr + (k : Int) * dr) (nc + (k : Int) * dc) ∧
          bget b (nr + (k : Int) * dr) (nc + (k : Int) * dc) = turn ∧
          (hasOpp = true ∨ 1 ≤ k) := by
  intro f
  induction f with
  | zero =>
    intro nr nc hasOpp
    simp [scanRun]
  | succ f ih =>
    intro nr nc hasOpp
    have step : ∀ j : Nat,
        (nr + ((j : Int) + 1) * dr = nr + dr + (j : Int) * dr) ∧
          (nc + ((j : Int) + 1) * dc = nc + dc + (j : Int) * dc) :=
      fun j => ⟨by ring, by ring⟩
    rw [scanRun]
    by_cases h : bounded nr nc ∧ bget b nr nc = -turn
    · rw [if_pos h, ih]
      constructor
      · rintro ⟨k, hkf, hopp, hb, ho, _⟩
        refine ⟨k + 1, by omega, ?_, ?_, ?_, Or.inr (by omega)⟩
        · intro i hi
          rcases i with _ | j
          · simpa using h
          · have hj := hopp j (by omega)
            push_cast
            rw [(step j).1, (step j).2]
            exact hj
        · push_cast
          rw [(step k).1, (step k).2]
          exact hb
        · push_cast
          rw [(step k).1, (step k).2]
          exact ho
      · rintro ⟨k, hkf, hopp, hb, ho, _⟩
        rcases k with _ | j
        · exfalso
          simp only [Nat.cast_zero, zero_mul, add_zero] at ho
          have heq : turn = -turn := ho.symm.trans h.2
          omega
        · push_cast [(step j).1, (step j).2] at hb ho
          refine ⟨j, by omega, ?_, hb, ho, Or.inl rfl⟩
          intro i hi
          have hj := hopp (i + 1) (by omega)
          push_cast [(step i).1, (step i).2] at hj
          exact hj
    · rw [if_neg h]
      constructor
      · intro hb
        refine ⟨0, by omega, by omega, ?_, ?_, ?_⟩
        · simp only [Bool.and_eq_true, decide_eq_true_eq] at hb
          simpa using hb.1.2
        · simp only [Bool.and_eq_true, decide_eq_true_eq] at hb
          simpa using hb.2
        · simp only [Bool.and_eq_true, decide_eq_true_eq] at hb
          exact Or.inl hb.1.1
      · rintro ⟨k, hkf, hopp, hb, ho, hor⟩
        rcases Nat.eq_zero_or_pos k with hk0 | hk1
        · subst hk0
          simp only [Nat.cast_zero, zero_mul, add_zero] at hb ho
          rcases hor with hor | hor
          · simp [hor, hb, ho]
          · omega
        · exact absurd (by simpa using hopp 0 hk1) h

/-- An in-bounds capturing run in one of the 8 directions has length at
most 6: positions `1..n+1` all fit on one 8-cell line. -/
theorem run_length_bound {b : Board} {r c dr dc turn : Int} {n : Nat}
    (hd : (dr, dc) ∈ dirList) (hrc : bounded r c)
    (hrun : opposingRun b r c dr dc turn n) : n ≤ 6 := by
  obtain ⟨-, hb, -⟩ := hrun
  fin_cases hd <;>
    · unfold bounded at hb hrc
      omega

theorem checkDirection_iff {b : Board} {r c dr dc turn : Int}
    (hrc : bounded r c) (hd : (dr, dc) ∈ dirList) (hturn : turn ≠ 0) :
    checkDirection b r c dr dc turn = true ↔
      ∃ n : Nat, 1 ≤ n ∧ opposingRun b r c dr dc turn n := by
  have shift : ∀ j : Nat,
      (r + dr + (j : Int) * dr = r + ((j : Int) + 1) * dr) ∧
        (c + dc + (j : Int) * dc = c + ((j : Int) + 1) * dc) :=
    fun j => ⟨by ring, by ring⟩
  rw [checkDirection, scanRun_iff b turn dr dc hturn]
  constructor
  · rintro ⟨k, -, hopp, hb, ho, hor⟩
    have hk1 : 1 ≤ k := by simpa using hor
    refine ⟨k, hk1, ?_, ?_, ?_⟩
    · intro i h1 h2
      obtain ⟨j, rfl⟩ : ∃ j, i = j + 1 := ⟨i - 1, by omega⟩
      have hj := hopp j (by omega)
      rw [(shift j).1, (shift j).2] at hj
      push_cast
      exact hj
    · rw [(shift k).1, (shift k).2] at hb
      exact hb
    · rw [(shift k).1, (shift k).2] at ho
      exact ho
  · rintro ⟨n, hn1, hrun⟩
    have hbound : n ≤ 6 := run_length_bound hd hrc hrun
    obtain ⟨hopp, hb, ho⟩ := hrun
    refine ⟨n, by omega, ?_, ?_, ?_, Or.inr hn1⟩
    · intro i hi
      have hj := hopp (i + 1) (by omega) (by omega)
      push_cast at hj
      rw [(shift i).1, (shift i).2]
      exact hj
    · rw [(shift n).1, (shift n).2]
      exact hb
    · rw [(shift n).1, (shift n).2]
      exact ho

theorem canPlace_iff {b : Board} {r c turn : Int} :
    canPlace b r c turn = true ↔
      bget b r c = 0 ∧ ∃ d ∈ dirList, checkDirection b r c d.1 d.2 turn = true := by
  unfold canPlace
  by_cases h : bget b r c = 0
  · simp [h, List.any_eq_true]
  · simp [h]

/-- `canPlace` forces the target cell in bounds: out-of-bounds reads give
the sentinel `2`, never `0`. -/
theorem canPlace_bounded {b : Board} {r c turn : Int}
    (h : canPlace b r c turn = true) : bounded r c := by
  have h0 := (canPlace_iff.mp h).1
  by_contra hb
  rw [bget, if_neg hb] at h0
  omega

theorem mem_getValidMoves {b : Board} {turn : Int} {p : Pos} :
    p ∈ getValidMoves b turn ↔ bounded p.r p.c ∧ canPlace b p.r p.c turn = true := by
  unfold getValidMoves
  simp only [List.mem_flatMap, List.mem_filterMap, List.mem_range]
  constructor
  · rintro ⟨r, hr, c, hc, hif⟩
    by_cases hcp : canPlace b (r : Int) (c : Int) turn
    · rw [if_pos hcp, Option.some_inj] at hif
      subst hif
      exact ⟨⟨by show (0 : Int) ≤ (r : Int); omega, by show ((r : Nat) : Int) < 8; omega,
        by show (0 : Int) ≤ (c : Int); omega, by show ((c : Nat) : Int) < 8; omega⟩, hcp⟩
    · rw [if_neg hcp] at hif
      exact absurd hif (Option.noConfusion)
  · rintro ⟨⟨h1, h2, h3, h4⟩, hcp⟩
    refine ⟨p.r.toNat, by omega, p.c.toNat, by omega, ?_⟩
    have er : ((p.r.toNat : Nat) : Int) = p.r := Int.toNat_of_nonneg h1
    have ec : ((p.c.toNat : Nat) : Int) = p.c := Int.toNat_of_nonneg h3
    rw [er, ec, if_pos hcp]

/-- **C2.** `getValidMoves` contains a position iff its cell is empty and
some compass direction carries a run of one or more opposing discs
starting adjacent to it and immediately followed by an own disc. -/
theorem getValidMoves_iff_opposingRun (b : Board) (side : Int)
    (hside : side = 1 ∨ side = -1) (p : Pos) :
    p ∈ getValidMoves b side ↔
      bounded p.r p.c ∧ bget b p.r p.c = 0 ∧
        ∃ d ∈ dirList, ∃ n : Nat, 1 ≤ n ∧ opposingRun b p.r p.c d.1 d.2 side n := by
  have hturn : side ≠ 0 := by rcases hside with h | h <;> simp [h]
  rw [mem_getValidMoves]
  constructor
  · rintro ⟨hb, hcp⟩
    obtain ⟨h0, d, hd, hcd⟩ := canPlace_iff.mp hcp
    exact ⟨hb, h0, d, hd, (checkDirection_iff hb hd hturn).mp hcd⟩
  · rintro ⟨hb, h0, d, hd, hrun⟩
    exact ⟨hb, canPlace_iff.mpr ⟨h0, d, hd, (checkDirection_iff hb hd hturn).mpr hrun⟩⟩

/-! ### The effect of `simulateMove` (towards C3 and C10) -/

theorem bset_val {b : Board} {r c : Int} (v : Int) (h : bounded r c) :
    (bset b r c v).val = b.val.set (8 * r.toNat + c.toNat) v := by
  unfold bset
  rw [if_pos h]

theorem bget_bset (b : Board) (r c v x y : Int) :
    bget (bset b r c v) x y =
      if x = r ∧ y = c ∧ bounded r c then v else bget b x y := by
  by_cases hrc : bounded r c
  · by_cases hxy : bounded x y
    · rw [bget, if_pos hxy, bset_val v hrc]
      by_cases hm : x = r ∧ y = c
      · obtain ⟨rfl, rfl⟩ := hm
        rw [if_pos ⟨rfl, rfl, hrc⟩, List.get?_set_eq_of_lt]
        · rfl
        · rw [b.2]
          unfold bounded at hrc
          omega
      · rw [if_neg (fun hc => hm ⟨hc.1, hc.2.1⟩), List.get?_set_ne, bget, if_pos hxy]
        unfold bounded at hrc hxy
        omega
    · have hne : ¬(x = r ∧ y = c ∧ bounded r c) := by
        rintro ⟨rfl, rfl, hb⟩
        exact hxy hb
      rw [bget, if_neg hxy, if_neg hne, bget, if_neg hxy]
  · have hne : ¬(x = r ∧ y = c ∧ bounded r c) := fun hc => hrc hc.2.2
    rw [if_neg hne]
    unfold bset
    rw [if_neg hrc]

theorem dir_nonzero {d : Int × Int} (hd : d ∈ dirList) : ¬(d.1 = 0 ∧ d.2 = 0) := by
  fin_cases hd <;> simp

/-- Distinct compass directions trace disjoint rays from a common origin. -/
theorem ray_disjoint {d1 d2 : Int × Int} (h1 : d1 ∈ dirList) (h2 : d2 ∈ dirList)
    (hne : d1 ≠ d2) {r c : Int} {i j : Nat} (hi : 1 ≤ i) (hj : 1 ≤ j) :
    ¬(r + (i : Int) * d1.1 = r + (j : Int) * d2.1 ∧
        c + (i : Int) * d1.2 = c + (j : Int) * d2.2) := by
  rintro ⟨e1, e2⟩
  have f1 : (i : Int) * d1.1 = (j : Int) * d2.1 := by omega
  have f2 : (i : Int) * d1.2 = (j : Int) * d2.2 := by omega
  have hi1 : 1 ≤ (i : Int) := by exact_mod_cast hi
  have hj1 : 1 ≤ (j : Int) := by exact_mod_cast hj
  clear e1 e2 hi hj
  fin_cases h1 <;> fin_cases h2 <;> dsimp only at f1 f2 hne <;>
    first
      | exact hne rfl
      | omega

/-- A cell read as `-turn` is in bounds when `turn = ±1` (out of bounds
reads give the sentinel `2`). -/
theorem bounded_of_bget_opp {b : Board} {x y turn : Int}
    (hturn : turn = 1 ∨ turn = -1) (h : bget b x y = -turn) : bounded x y := by
  by_contra hb
  rw [bget, if_neg hb] at h
  rcases hturn with rfl | rfl <;> omega

/-- Pointwise effect of one `flipRun` call: with `n` leading opposing
discs from the start cell and a non-opposing cell after them, exactly
those `n` cells are set to `turn`. -/
theorem flipRun_eq {dr dc turn : Int} (hturn : turn = 1 ∨ turn = -1)
    (hd : ¬(dr = 0 ∧ dc = 0)) :
    ∀ (f n : Nat) (b : Board) (sr sc : Int), n < f →
      (∀ i : Nat, i < n →
        bget b (sr + (i : Int) * dr) (sc + (i : Int) * dc) = -turn) →
      bget b (sr + (n : Int) * dr) (sc + (n : Int) * dc) ≠ -turn →
      ∀ x y : Int, bget (flipRun dr dc turn f b sr sc) x y =
        if ∃ i : Nat, i < n ∧ x = sr + (i : Int) * dr ∧ y = sc + (i : Int) * dc
        then turn else bget b x y := by
  intro f
  induction f with
  | zero => omega
  | succ f ih =>
    intro n b sr sc hnf hopp hstop x y
    rcases n with _ | m
    · simp only [Nat.cast_zero, zero_mul, add_zero] at hstop
      rw [flipRun, if_neg hstop]
      simp
    · have h0 : bget b sr sc = -turn := by simpa using hopp 0 (by omega)
      have hb0 : bounded sr sc := bounded_of_bget_opp hturn h0
      rw [flipRun, if_pos h0]
      have hray : ∀ i : Nat, 1 ≤ i →
          ¬(sr + (i : Int) * dr = sr ∧ sc + (i : Int) * dc = sc) := by
        rintro i hi ⟨e1, e2⟩
        have hi1 : 1 ≤ (i : Int) := by exact_mod_cast hi
        have hz : (i : Int) * dr = 0 ∧ (i : Int) * dc = 0 := by constructor <;> omega
        rcases mul_eq_zero.mp hz.1 with h | h
        · omega
        · rcases mul_eq_zero.mp hz.2 with h2 | h2
          · omega
          · exact hd ⟨h, h2⟩
      have hopp2 : ∀ i : Nat, i < m →
          bget (bset b sr sc turn) (sr + dr + (i : Int) * dr) (sc + dc + (i : Int) * dc) =
            -turn := by
        intro i hi
        have e1 : sr + dr + (i : Int) * dr = sr + ((i + 1 : Nat) : Int) * dr := by
          push_cast; ring
        have e2 : sc + dc + (i : Int) * dc = sc + ((i + 1 : Nat) : Int) * dc := by
          push_cast; ring
        rw [e1, e2, bget_bset, if_neg]
        · exact hopp (i + 1) (by omega)
        · rintro ⟨g1, g2, -⟩
          exact hray (i + 1) (by omega) ⟨g1, g2⟩
      have hstop2 :
          bget (bset b sr sc turn) (sr + dr + (m : Int) * dr) (sc + dc + (m : Int) * dc) ≠
            -turn := by
        have e1 : sr + dr + (m : Int) * dr = sr + ((m + 1 : Nat) : Int) * dr := by
          push_cast; ring
        have e2 : sc + dc + (m : Int) * dc = sc + ((m + 1 : Nat) : Int) * dc := by
          push_cast; ring
        rw [e1, e2, bget_bset, if_neg]
        · exact hstop
        · rintro ⟨g1, g2, -⟩
          exact hray (m + 1) (by omega) ⟨g1, g2⟩
      rw [ih m (bset b sr sc turn) (sr + dr) (sc + dc) (by omega) hopp2 hstop2 x y]
      by_cases hin : ∃ i : Nat, i < m + 1 ∧ x = sr + (i : Int) * dr ∧ y = sc + (i : Int) * dc
      · rw [if_pos hin]
        obtain ⟨i, hilt, hx, hy⟩ := hin
        rcases i with _ | i2
        · simp only [Nat.cast_zero, zero_mul, add_zero] at hx hy
          rw [if_neg, bget_bset, if_pos ⟨hx, hy, hb0⟩]
          rintro ⟨i, hilt2, e1, e2⟩
          apply hray (i + 1) (by omega)
          constructor
          · have g1 : sr + ((i + 1 : Nat) : Int) * dr = x := by rw [e1]; push_cast; ring
            rw [g1, hx]
          · have g2 : sc + ((i + 1 : Nat) : Int) * dc = y := by rw [e2]; push_cast; ring
            rw [g2, hy]
        · rw [if_pos ⟨i2, by omega, by rw [hx]; push_cast; ring, by rw [hy]; push_cast; ring⟩]
      · rw [if_neg hin, if_neg, bget_bset, if_neg]
        · rintro ⟨g1, g2, -⟩
          exact hin ⟨0, by omega, by simpa using g1, by simpa using g2⟩
        · rintro ⟨i, hilt, e1, e2⟩
          apply hin
          refine ⟨i + 1, by omega, ?_, ?_⟩
          · rw [e1]; push_cast; ring
          · rw [e2]; push_cast; ring

/-- The cells flipped by `simulateMove` among the directions `ds`: on a
valid direction, every cell of the opposing prefix up to some offset. -/
def flippedCell (b : Board) (r c turn : Int) (ds : List (Int × Int)) (x y : Int) : Prop :=
  ∃ d ∈ ds, checkDirection b r c d.1 d.2 turn = true ∧
    ∃ i : Nat, 1 ≤ i ∧ x = r + (i : Int) * d.1 ∧ y = c + (i : Int) * d.2 ∧
      ∀ j : Nat, 1 ≤ j → j ≤ i →
        bget b (r + (j : Int) * d.1) (c + (j : Int) * d.2) = -turn

theorem flippedCell_cons {b : Board} {r c turn : Int} {d : Int × Int}
    {ds : List (Int × Int)} {x y : Int} :
    flippedCell b r c turn (d :: ds) x y ↔
      (checkDirection b r c d.1 d.2 turn = true ∧
        ∃ i : Nat, 1 ≤ i ∧ x = r + (i : Int) * d.1 ∧ y = c + (i : Int) * d.2 ∧
          ∀ j : Nat, 1 ≤ j → j ≤ i →
            bget b (r + (j : Int) * d.1) (c + (j : Int) * d.2) = -turn) ∨
      flippedCell b r c turn ds x y := by
  unfold flippedCell
  constructor
  · rintro ⟨d2, hd2, hrest⟩
    rcases List.mem_cons.mp hd2 with rfl | hmem
    · exact Or.inl hrest
    · exact Or.inr ⟨d2, hmem, hrest⟩
  · rintro (h | ⟨d2, hd2, hrest⟩)
    · exact ⟨d, List.mem_cons_self d ds, h⟩
    · exact ⟨d2, List.mem_cons_of_mem d hd2, hrest⟩

theorem ray_ne_origin {d : Int × Int} (hd : d ∈ dirList) {r c : Int} {i : Nat}
    (hi : 1 ≤ i) : ¬(r + (i : Int) * d.1 = r ∧ c + (i : Int) * d.2 = c) := by
  rintro ⟨e1, e2⟩
  have hi1 : 1 ≤ (i : Int) := by exact_mod_cast hi
  have hz : (i : Int) * d.1 = 0 ∧ (i : Int) * d.2 = 0 := by constructor <;> omega
  rcases mul_eq_zero.mp hz.1 with h | h
  · omega
  · rcases mul_eq_zero.mp hz.2 with h2 | h2
    · omega
    · exact dir_nonzero hd ⟨h, h2⟩

theorem turn_ne_neg {turn : Int} (hturn : turn = 1 ∨ turn = -1) : turn ≠ -turn := by
  rcases hturn with rfl | rfl <;> omega

section FoldFlips

open Classical

/-- Pointwise effect of the direction fold inside `simulateMove`:
starting from any board that agrees with `b` on all strict rays of the
pending directions, the fold turns exactly the flipped cells to `turn`
and leaves every other cell of the start board alone. -/
theorem foldFlips_eq {b : Board} {r c turn : Int} (hturn : turn = 1 ∨ turn = -1)
    (hrc : bounded r c) :
    ∀ (ds : List (Int × Int)) (B : Board),
      (∀ d ∈ ds, d ∈ dirList) → ds.Nodup →
      (∀ d ∈ ds, ∀ i : Nat, 1 ≤ i →
        bget B (r + (i : Int) * d.1) (c + (i : Int) * d.2) =
          bget b (r + (i : Int) * d.1) (c + (i : Int) * d.2)) →
      ∀ x y : Int,
        bget (ds.foldl (fun nb d =>
          if checkDirection b r c d.1 d.2 turn then
            flipRun d.1 d.2 turn 16 nb (r + d.1) (c + d.2)
          else nb) B) x y =
        (if flippedCell b r c turn ds x y then turn else bget B x y) := by
  have hturn0 : turn ≠ 0 := by rcases hturn with rfl | rfl <;> omega
  intro ds
  induction ds with
  | nil =>
    intro B hsub hnd hB x y
    rw [List.foldl_nil, if_neg]
    rintro ⟨d, hd, -⟩
    exact absurd hd (List.not_mem_nil d)
  | cons d rest ih =>
    intro B hsub hnd hB x y
    have hdmem : d ∈ dirList := hsub d (List.mem_cons_self d rest)
    have hdnotin : d ∉ rest := (List.nodup_cons.mp hnd).1
    rw [List.foldl_cons]
    by_cases hcd : checkDirection b r c d.1 d.2 turn = true
    · rw [if_pos hcd]
      obtain ⟨n, hn1, hopps, hbnd, hown⟩ := (checkDirection_iff hrc hdmem hturn0).mp hcd
      have hn6 : n ≤ 6 := run_length_bound hdmem hrc ⟨hopps, hbnd, hown⟩
      have hshift : ∀ (i : Nat) (z dz : Int),
          z + dz + (i : Int) * dz = z + ((i : Int) + 1) * dz := fun i z dz => by ring
      have hownc : bget b (r + ((n + 1 : Nat) : Int) * d.1)
          (c + ((n + 1 : Nat) : Int) * d.2) = turn := by
        push_cast
        exact hown
      have hoppB : ∀ i : Nat, i < n →
          bget B (r + d.1 + (i : Int) * d.1) (c + d.2 + (i : Int) * d.2) = -turn := by
        intro i hi
        rw [hshift i r d.1, hshift i c d.2]
        have e1 : r + ((i : Int) + 1) * d.1 = r + ((i + 1 : Nat) : Int) * d.1 := by
          push_cast; ring
        have e2 : c + ((i : Int) + 1) * d.2 = c + ((i + 1 : Nat) : Int) * d.2 := by
          push_cast; ring
        rw [e1, e2, hB d (List.mem_cons_self d rest) (i + 1) (by omega)]
        exact (hopps (i + 1) (by omega) (by omega)).2
      have hstopB :
          bget B (r + d.1 + (n : Int) * d.1) (c + d.2 + (n : Int) * d.2) ≠ -turn := by
        rw [hshift n r d.1, hshift n c d.2]
        have e1 : r + ((n : Int) + 1) * d.1 = r + ((n + 1 : Nat) : Int) * d.1 := by
          push_cast; ring
        have e2 : c + ((n : Int) + 1) * d.2 = c + ((n + 1 : Nat) : Int) * d.2 := by
          push_cast; ring
        rw [e1, e2, hB d (List.mem_cons_self d rest) (n + 1) (by omega), hownc]
        exact fun hcontra => turn_ne_neg hturn hcontra
      have hflip := flipRun_eq hturn (dir_nonzero hdmem) 16 n B (r + d.1) (c + d.2)
        (by omega) hoppB hstopB
      have hB1 : ∀ d2 ∈ rest, ∀ i : Nat, 1 ≤ i →
          bget (flipRun d.1 d.2 turn 16 B (r + d.1) (c + d.2))
              (r + (i : Int) * d2.1) (c + (i : Int) * d2.2) =
            bget b (r + (i : Int) * d2.1) (c + (i : Int) * d2.2) := by
        intro d2 hd2 i hi
        rw [hflip, if_neg]
        · exact hB d2 (List.mem_cons_of_mem d hd2) i hi
        · rintro ⟨i2, hi2, e1, e2⟩
          rw [hshift i2 r d.1] at e1
          rw [hshift i2 c d.2] at e2
          refine @ray_disjoint d2 d (hsub d2 (List.mem_cons_of_mem d hd2)) hdmem
            (fun hne => hdnotin (hne ▸ hd2)) r c i (i2 + 1) hi (Nat.le_add_left 1 i2) ⟨?_, ?_⟩
          · push_cast
            exact e1
          · push_cast
            exact e2
      rw [ih (flipRun d.1 d.2 turn 16 B (r + d.1) (c + d.2))
        (fun d2 hd2 => hsub d2 (List.mem_cons_of_mem d hd2))
        (List.nodup_cons.mp hnd).2 hB1 x y]
      rw [flippedCell_cons]
      by_cases h2 : flippedCell b r c turn rest x y
      · rw [if_pos h2, if_pos (Or.inr h2)]
      · rw [if_neg h2]
        by_cases h1 : checkDirection b r c d.1 d.2 turn = true ∧
            ∃ i : Nat, 1 ≤ i ∧ x = r + (i : Int) * d.1 ∧ y = c + (i : Int) * d.2 ∧
              ∀ j : Nat, 1 ≤ j → j ≤ i →
                bget b (r + (j : Int) * d.1) (c + (j : Int) * d.2) = -turn
        · rw [if_pos (Or.inl h1)]
          obtain ⟨-, i, hi1, hx, hy, hpref⟩ := h1
          obtain ⟨i0, rfl⟩ : ∃ i0, i = i0 + 1 := ⟨i - 1, by omega⟩
          have hile : i0 + 1 ≤ n := by
            by_contra hgt
            have e := hpref (n + 1) (by omega) (by omega)
            rw [hownc] at e
            exact turn_ne_neg hturn e
          rw [hflip, if_pos ⟨i0, by omega,
            by rw [hx]; push_cast; ring,
            by rw [hy]; push_cast; ring⟩]
        · rw [if_neg (fun hor => Or.elim hor h1 h2), hflip, if_neg]
          rintro ⟨i2, hi2, e1, e2⟩
          apply h1
          refine ⟨hcd, i2 + 1, by omega, ?_, ?_, ?_⟩
          · rw [e1]; push_cast; ring
          · rw [e2]; push_cast; ring
          · intro j hj1 hj2
            exact (hopps j hj1 (by omega)).2
    · rw [if_neg hcd]
      rw [ih B (fun d2 hd2 => hsub d2 (List.mem_cons_of_mem d hd2))
        (List.nodup_cons.mp hnd).2
        (fun d2 hd2 => hB d2 (List.mem_cons_of_mem d hd2)) x y]
      rw [flippedCell_cons]
      by_cases h2 : flippedCell b r c turn rest x y
      · rw [if_pos h2, if_pos (Or.inr h2)]
      · rw [if_neg h2, if_neg]
        rintro (⟨hc, -⟩ | h)
        · exact hcd hc
        · exact h2 h

/-- Pointwise description of the board built inside `simulateMove` for a
legal move: the played cell and all flipped cells hold `turn`, everything
else is unchanged. -/
theorem simulateMove_pointwise {b : Board} {r c turn : Int}
    (hturn : turn = 1 ∨ turn = -1) (hleg : canPlace b r c turn = true) :
    ∀ x y : Int,
      bget (dirList.foldl (fun nb d =>
          if checkDirection b r c d.1 d.2 turn then
            flipRun d.1 d.2 turn 16 nb (r + d.1) (c + d.2)
          else nb) (bset b r c turn)) x y =
        if (x = r ∧ y = c) ∨ flippedCell b r c turn dirList x y then turn
        else bget b x y := by
  intro x y
  have hrc : bounded r c := canPlace_bounded hleg
  have hB0 : ∀ d ∈ dirList, ∀ i : Nat, 1 ≤ i →
      bget (bset b r c turn) (r + (i : Int) * d.1) (c + (i : Int) * d.2) =
        bget b (r + (i : Int) * d.1) (c + (i : Int) * d.2) := by
    intro d hd i hi
    rw [bget_bset, if_neg]
    rintro ⟨e1, e2, -⟩
    exact ray_ne_origin hd hi ⟨e1, e2⟩
  rw [foldFlips_eq hturn hrc dirList (bset b r c turn) (fun d hd => hd)
    (by decide) hB0 x y]
  by_cases hf : flippedCell b r c turn dirList x y
  · rw [if_pos hf, if_pos (Or.inr hf)]
  · rw [if_neg hf]
    by_cases ho : x = r ∧ y = c
    · rw [if_pos (Or.inl ho), bget_bset, if_pos ⟨ho.1, ho.2, hrc⟩]
    · rw [if_neg (fun hor => Or.elim hor ho hf), bget_bset,
        if_neg (fun hc => ho ⟨hc.1, hc.2.1⟩)]

end FoldFlips

/-- A flipped cell held an opposing disc in the original board. -/
theorem flippedCell_opp {b : Board} {r c turn : Int} {ds : List (Int × Int)}
    {x y : Int} (h : flippedCell b r c turn ds x y) : bget b x y = -turn := by
  obtain ⟨d, -, -, i, hi1, rfl, rfl, hpref⟩ := h
  exact hpref i hi1 le_rfl

/-- **C3.** For every board, side `±1` and legal move, `simulateMove`
returns a board in which the played cell holds the mover's disc, every
disc of every valid direction's maximal bounded opposing run is flipped
to the mover's side, no other cell differs from the input, and the
occupied-cell count is the input's count plus one. -/
theorem simulateMove_spec (b : Board) (r c side : Int)
    (hside : side = 1 ∨ side = -1) (hleg : canPlace b r c side = true) :
    ∃ b2, simulateMove b r c side = some b2 ∧
      bget b2 r c = side ∧
      (∀ d ∈ dirList, ∀ n : Nat, 1 ≤ n → opposingRun b r c d.1 d.2 side n →
        ∀ i : Nat, 1 ≤ i → i ≤ n →
          bget b2 (r + (i : Int) * d.1) (c + (i : Int) * d.2) = side) ∧
      (∀ x y : Int, ¬(x = r ∧ y = c) → ¬flippedCell b r c side dirList x y →
        bget b2 x y = bget b x y) ∧
      occCount b2 = occCount b + 1 := by
  have hrc : bounded r c := canPlace_bounded hleg
  have hside0 : side ≠ 0 := by rcases hside with rfl | rfl <;> omega
  have hpw := simulateMove_pointwise hside hleg
  refine ⟨_, by rw [simulateMove, if_pos hleg], ?_, ?_, ?_, ?_⟩
  · rw [hpw, if_pos (Or.inl ⟨rfl, rfl⟩)]
  · intro d hd n hn1 hrun i hi1 hin
    refine (hpw _ _).trans (if_pos (Or.inr ⟨d, hd,
      (checkDirection_iff hrc hd hside0).mpr ⟨n, hn1, hrun⟩,
      i, hi1, rfl, rfl, fun j hj1 hj2 => (hrun.1 j hj1 (by omega)).2⟩))
  · intro x y ho hf
    rw [hpw, if_neg (fun hor => Or.elim hor ho hf)]
  · have hb0 : bget b r c = 0 := (canPlace_iff.mp hleg).1
    have hrn : r.toNat < 8 := by unfold bounded at hrc; omega
    have hcn : c.toNat < 8 := by unfold bounded at hrc; omega
    have her : ((r.toNat : Nat) : Int) = r := Int.toNat_of_nonneg hrc.1
    have hec : ((c.toNat : Nat) : Int) = c := Int.toNat_of_nonneg hrc.2.2.1
    have key : ∀ p : Fin 8 × Fin 8,
        bget (dirList.foldl (fun nb d =>
          if checkDirection b r c d.1 d.2 side then
            flipRun d.1 d.2 side 16 nb (r + d.1) (c + d.2)
          else nb) (bset b r c side)) (p.1 : Int) (p.2 : Int) ≠ 0 ↔
        (bget b (p.1 : Int) (p.2 : Int) ≠ 0 ∨ ((p.1 : Int) = r ∧ (p.2 : Int) = c)) := by
      intro p
      have hp := hpw (p.1 : Int) (p.2 : Int)
      by_cases horig : ((p.1 : Int) = r ∧ (p.2 : Int) = c)
      · rw [if_pos (Or.inl horig)] at hp
        rw [hp]
        simp [horig, hside0]
      · by_cases hf : flippedCell b r c side dirList (p.1 : Int) (p.2 : Int)
        · rw [if_pos (Or.inr hf)] at hp
          have hbp : bget b (p.1 : Int) (p.2 : Int) = -side := flippedCell_opp hf
          constructor
          · intro
            exact Or.inl (by rw [hbp]; omega)
          · intro
            rw [hp]
            exact hside0
        · rw [if_neg (fun hor => Or.elim hor horig hf)] at hp
          rw [hp]
          simp [horig]
    have horigin :
        bget b (((⟨r.toNat, hrn⟩ : Fin 8) : Nat) : Int)
          (((⟨c.toNat, hcn⟩ : Fin 8) : Nat) : Int) = 0 := by
      show bget b ((r.toNat : Nat) : Int) ((c.toNat : Nat) : Int) = 0
      rw [her, hec]
      exact hb0
    unfold occCount
    have hset :
        ((Finset.univ : Finset (Fin 8 × Fin 8)).filter fun p =>
          bget (dirList.foldl (fun nb d =>
            if checkDirection b r c d.1 d.2 side then
              flipRun d.1 d.2 side 16 nb (r + d.1) (c + d.2)
            else nb) (bset b r c side)) (p.1 : Int) (p.2 : Int) ≠ 0) =
        insert ((⟨r.toNat, hrn⟩ : Fin 8), (⟨c.toNat, hcn⟩ : Fin 8))
          ((Finset.univ : Finset (Fin 8 × Fin 8)).filter fun p =>
            bget b (p.1 : Int) (p.2 : Int) ≠ 0) := by
      apply Finset.ext
      intro p
      rw [Finset.mem_insert, Finset.mem_filter, Finset.mem_filter, key p]
      have hiff : ((p.1 : Int) = r ∧ (p.2 : Int) = c) ↔
          p = ((⟨r.toNat, hrn⟩ : Fin 8), (⟨c.toNat, hcn⟩ : Fin 8)) := by
        constructor
        · rintro ⟨e1, e2⟩
          have g1 : p.1 = (⟨r.toNat, hrn⟩ : Fin 8) := by
            apply Fin.ext
            have gg : ((p.1.val : Nat) : Int) = ((r.toNat : Nat) : Int) := by
              rw [her]
              exact_mod_cast e1
            exact_mod_cast gg
          have g2 : p.2 = (⟨c.toNat, hcn⟩ : Fin 8) := by
            apply Fin.ext
            have gg : ((p.2.val : Nat) : Int) = ((c.toNat : Nat) : Int) := by
              rw [hec]
              exact_mod_cast e2
            exact_mod_cast gg
          exact Prod.ext g1 g2
        · rintro rfl
          exact ⟨by simpa using her, by simpa using hec⟩
      rw [hiff]
      constructor
      · rintro ⟨-, h | h⟩
        · exact Or.inr ⟨Finset.mem_univ p, h⟩
        · exact Or.inl h
      · rintro (h | ⟨-, h⟩)
        · exact ⟨Finset.mem_univ p, Or.inr h⟩
        · exact ⟨Finset.mem_univ p, Or.inl h⟩
    rw [hset, Finset.card_insert_of_not_mem]
    rw [Finset.mem_filter]
    rintro ⟨-, hne⟩
    exact hne horigin

theorem getValidMoves_iff_opposingRun_witness :
    ((1 : Int) = 1 ∨ (1 : Int) = -1) ∧
      ((⟨2, 3⟩ : Pos) ∈ getValidMoves startBoard 1 ↔
        bounded (2 : Int) 3 ∧ bget startBoard 2 3 = 0 ∧
          ∃ d ∈ dirList, ∃ n : Nat, 1 ≤ n ∧ opposingRun startBoard 2 3 d.1 d.2 1 n) :=
  ⟨Or.inl rfl, getValidMoves_iff_opposingRun startBoard 1 (Or.inl rfl) ⟨2, 3⟩⟩

theorem simulateMove_spec_witness :
    ((1 : Int) = 1 ∨ (1 : Int) = -1) ∧ canPlace startBoard 2 3 1 = true ∧
      ∃ b2, simulateMove startBoard 2 3 1 = some b2 ∧
        bget b2 2 3 = 1 ∧
        (∀ d ∈ dirList, ∀ n : Nat, 1 ≤ n → opposingRun startBoard 2 3 d.1 d.2 1 n →
          ∀ i : Nat, 1 ≤ i → i ≤ n →
            bget b2 (2 + (i : Int) * d.1) (3 + (i : Int) * d.2) = 1) ∧
        (∀ x y : Int, ¬(x = 2 ∧ y = 3) → ¬flippedCell startBoard 2 3 1 dirList x y →
          bget b2 x y = bget startBoard x y) ∧
        occCount b2 = occCount startBoard + 1 :=
  ⟨Or.inl rfl, by decide, simulateMove_spec startBoard 2 3 1 (Or.inl rfl) (by decide)⟩

/-- **C10.** `simulateMove` returns `null` exactly on illegal moves: it
never produces a board when `canPlace` fails. -/
theorem simulateMove_none_iff (b : Board) (r c side : Int) :
    simulateMove b r c side = none ↔ canPlace b r c side = false := by
  unfold simulateMove
  by_cases h : canPlace b r c side = true
  · simp [h]
  · simp [h, Bool.eq_false_iff.mpr h]

/-! ### Engine data model (`unified_ai_engine.js`)

JS numbers are modelled by `ℚ` where only finite values occur and by
`XVal := WithBot (WithTop ℚ)` where `±Infinity` participates (`Math.max`,
`Math.min`, the alpha-beta window).  `Math.random()` draws are an
explicit parameter `u ∈ [0, 1)`; the stream of draws of one call is
`urand : Nat → ℚ`. -/

/-- JS numbers including `-Infinity` (`⊥`) and `Infinity` (`⊤`). -/
abbrev XVal := WithBot (WithTop ℚ)

/-- A finite JS number as an `XVal`. -/
def xval (q : ℚ) : XVal := ((q : WithTop ℚ) : XVal)

/-- `UnifiedAIEngine.POSITION_WEIGHTS`. -/
def POSITION_WEIGHTS : List (List Int) :=
  [[500, -150, 30, 10, 10, 30, -150, 500],
   [-150, -250, 0, 0, 0, 0, -250, -150],
   [30, 0, 1, 2, 2, 1, 0, 30],
   [10, 0, 2, 16, 16, 2, 0, 10],
   [10, 0, 2, 16, 16, 2, 0, 10],
   [30, 0, 1, 2, 2, 1, 0, 30],
   [-150, -250, 0, 0, 0, 0, -250, -150],
   [500, -150, 30, 10, 10, 30, -150, 500]]

/-- `POSITION_WEIGHTS[r][c]` (all engine reads are in range). -/
def posWeight (r c : Int) : Int :=
  (((POSITION_WEIGHTS.get? r.toNat).getD []).get? c.toNat).getD 0

/-- Game phase (`_getPhase` over `PHASE_THRESHOLDS`). -/
inductive Phase where
  | opening
  | midgame
  | endgame
deriving DecidableEq, Repr

/-- `_getPhase`: thresholds 20 and 44. -/
def getPhase (currentTurn : Int) : Phase :=
  if currentTurn ≤ 20 then .opening
  else if currentTurn ≤ 44 then .midgame
  else .endgame

/-- One phase's weight record; `stability`, `corner` and `frontier` are
optional fields in the JS objects. -/
structure PhaseW where
  mobility : ℚ
  position : ℚ
  discDiff : ℚ
  stability : Option ℚ
  corner : Option ℚ
  frontier : Option ℚ
deriving DecidableEq, Repr

/-- The three-phase weight table. -/
structure Weights where
  opening : PhaseW
  midgame : PhaseW
  endgame : PhaseW
deriving DecidableEq, Repr

/-- `_getWeights` (`weights[phase]`; the `|| weights.midgame` fallback is
dead for the total record produced by normalisation). -/
def getWeights (w : Weights) : Phase → PhaseW
  | .opening => w.opening
  | .midgame => w.midgame
  | .endgame => w.endgame

/-- The canonical config produced by `_normalizeConfig`. -/
structure SearchConfig where
  maxDepth : Int
  timeLimit : ℚ
  endgameSolverDepth : Int
  randomness : ℚ
  useMoveOrdering : Bool
  weights : Weights
deriving DecidableEq, Repr

/-- The `config.ai` object of a modern profile; every field optional. -/
structure ModernAI where
  maxDepth : Option Int
  timeLimit : Option ℚ
  endgameSolverDepth : Option Int
  randomness : Option ℚ
  useMoveOrdering : Option Bool
  weights : Option Weights
deriving DecidableEq, Repr

/-- One flat legacy weight set (`parameters.early` / `parameters.late`). -/
structure FlatW where
  mobility : ℚ
  position : ℚ
  discDiff : ℚ
deriving DecidableEq, Repr

/-- The legacy `parameters` object (fields read by the engine). -/
structure LegacyParams where
  early : Option FlatW
  late : Option FlatW
  mobility : Option ℚ
  position : Option ℚ
  discDiff : Option ℚ
deriving DecidableEq, Repr

/-- The `logicType` string: only the comparison with the literal
`dynamic_turn` matters to the engine. -/
inductive LogicType where
  | dynamicTurn
  | staticType
deriving DecidableEq, Repr

/-- A profile as read by `_normalizeConfig`: the fields the function
accesses, each possibly absent. -/
structure ConfigObj where
  ai : Option ModernAI
  depth : Option Int
  randomness : Option ℚ
  logicType : Option LogicType
  parameters : Option LegacyParams
deriving DecidableEq, Repr

/-- JS `x || d` for a possibly-absent number: `0` (falsy) also falls back. -/
def jsOrI (o : Option Int) (d : Int) : Int :=
  match o with
  | some v => if v = 0 then d else v
  | none => d

/-- JS `x || d` for a possibly-absent rational. -/
def jsOrQ (o : Option ℚ) (d : ℚ) : ℚ :=
  match o with
  | some v => if v = 0 then d else v
  | none => d

/-- `_convertDepth`. -/
def convertDepth (oldDepth : Int) : Int :=
  if oldDepth = 1 then 2
  else if oldDepth = 2 then 3
  else if oldDepth = 3 then 4
  else if oldDepth = 4 then 6
  else oldDepth + 2

/-- `_getEndgameDepthFromOldDepth`. -/
def endgameDepthFromOldDepth (oldDepth : Int) : Int :=
  if 4 ≤ oldDepth then 8
  else if 3 ≤ oldDepth then 4
  else 0

/-- `_convertLegacyWeights`. -/
def convertLegacyWeights (cfg : ConfigObj) : Weights :=
  let params := cfg.parameters.getD ⟨none, none, none, none, none⟩
  if cfg.logicType = some .dynamicTurn then
    let early := params.early.getD ⟨30, 10, -5⟩
    let late := params.late.getD ⟨5, 20, 100⟩
    { opening := ⟨early.mobility, early.position, early.discDiff, some 0, some 50, none⟩
      midgame := ⟨(early.mobility + late.mobility) / 2, (early.position + late.position) / 2,
        (early.discDiff + late.discDiff) / 2, some 10, some 50, none⟩
      endgame := ⟨late.mobility, late.position, late.discDiff, some 20, some 50, none⟩ }
  else
    let m := params.mobility.getD 30
    let p := params.position.getD 20
    let d := params.discDiff.getD 10
    { opening := ⟨m, p, d, some 0, some 50, none⟩
      midgame := ⟨m, p, d, some 10, some 50, none⟩
      endgame := ⟨m, p, d, some 20, some 50, none⟩ }

/-- `_getDefaultWeights`. -/
def defaultWeights : Weights :=
  { opening := ⟨30, 20, -10, some 0, some 50, none⟩
    midgame := ⟨20, 30, 10, some 10, some 50, none⟩
    endgame := ⟨5, 10, 100, some 30, some 30, none⟩ }

/-- `_normalizeConfig`. -/
def normalizeConfig (cfg : ConfigObj) : SearchConfig :=
  match cfg.ai with
  | some ai =>
      { maxDepth := jsOrI ai.maxDepth 4
        timeLimit := jsOrQ ai.timeLimit 2000
        endgameSolverDepth := jsOrI ai.endgameSolverDepth 0
        randomness := ai.randomness.getD 0
        useMoveOrdering := ai.useMoveOrdering.getD false
        weights := ai.weights.getD defaultWeights }
  | none =>
      { maxDepth := convertDepth (jsOrI cfg.depth 4)
        timeLimit := 2000
        endgameSolverDepth := endgameDepthFromOldDepth (jsOrI cfg.depth 4)
        randomness := cfg.randomness.getD 0
        useMoveOrdering := decide (4 ≤ jsOrI cfg.depth 4)
        weights := convertLegacyWeights cfg }

/-- The canonical config viewed again as a profile object: it has no
`ai` marker and, of the legacy fields, only `randomness`. -/
def configToObj (sc : SearchConfig) : ConfigObj :=
  { ai := none
    depth := none
    randomness := some sc.randomness
    logicType := none
    parameters := none }

/-! ### Evaluator -/

/-- `_evaluatePosition`. -/
def evaluatePosition (b : Board) (aiTurn : Int) : Int :=
  ((List.range 8).map fun (r : Nat) =>
    ((List.range 8).map fun (c : Nat) =>
      if bget b (r : Int) (c : Int) = aiTurn then posWeight (r : Int) (c : Int)
      else if bget b (r : Int) (c : Int) = -aiTurn then -posWeight (r : Int) (c : Int)
      else 0).sum).sum

/-- `_evaluateMobility`. -/
def evaluateMobility (b : Board) (aiTurn : Int) : Int :=
  ((getValidMoves b aiTurn).length : Int) - ((getValidMoves b (-aiTurn)).length : Int)

/-- The horizontal while loop of `_evaluateStability` (2 per contiguous
own disc along the corner row). -/
def stabH (b : Board) (row owner dcStep : Int) : Nat → Int → Int
  | 0, _ => 0
  | f + 1, cc =>
    if 0 ≤ cc ∧ cc < 8 ∧ bget b row cc = owner then
      2 + stabH b row owner dcStep f (cc + dcStep)
    else 0

/-- The vertical while loop of `_evaluateStability`. -/
def stabV (b : Board) (col owner drStep : Int) : Nat → Int → Int
  | 0, _ => 0
  | f + 1, rr =>
    if 0 ≤ rr ∧ rr < 8 ∧ bget b rr col = owner then
      2 + stabV b col owner drStep f (rr + drStep)
    else 0

/-- `_evaluateStability`: 3 per occupied corner plus 2 per contiguous
same-owner disc along the two edges, as `mine − opponent`. -/
def evaluateStability (b : Board) (aiTurn : Int) : Int :=
  ([((0 : Int), (0 : Int), (1 : Int), (1 : Int)),
    (0, 7, -1, 1), (7, 0, 1, -1), (7, 7, -1, -1)]).foldl
    (fun acc corner =>
      match corner with
      | (r, c, dc0, dr1) =>
        let owner := bget b r c
        if owner = 0 then acc
        else
          let s := 3 + stabH b r owner dc0 16 (c + dc0) + stabV b c owner dr1 16 (r + dr1)
          if owner = aiTurn then acc + s else acc - s) 0

/-- `_evaluateFrontier`: `opponent frontier − own frontier`. -/
def evaluateFrontier (b : Board) (aiTurn : Int) : Int :=
  ((List.range 8).map fun (r : Nat) =>
    ((List.range 8).map fun (c : Nat) =>
      if bget b (r : Int) (c : Int) = 0 then 0
      else if dirList.any fun d =>
          decide (bounded ((r : Int) + d.1) ((c : Int) + d.2)) &&
            decide (bget b ((r : Int) + d.1) ((c : Int) + d.2) = 0) then
        (if bget b (r : Int) (c : Int) = aiTurn then -1 else 1)
      else 0).sum).sum

/-- `_evaluateDiscDiff`. -/
def evaluateDiscDiff (b : Board) (aiTurn : Int) : Int :=
  ((List.range 8).map fun (r : Nat) =>
    ((List.range 8).map fun (c : Nat) =>
      if bget b (r : Int) (c : Int) = aiTurn then 1
      else if bget b (r : Int) (c : Int) = -aiTurn then -1
      else 0).sum).sum

/-- `_evaluateCorners`. -/
def evaluateCorners (b : Board) (aiTurn : Int) : Int :=
  ([((0 : Int), (0 : Int)), (0, 7), (7, 0), (7, 7)]).foldl
    (fun acc p =>
      if bget b p.1 p.2 = aiTurn then acc + 1
      else if bget b p.1 p.2 = -aiTurn then acc - 1
      else acc) 0

/-- `_evaluateFinal`: raw disc difference times 1000. -/
def evaluateFinal (b : Board) (aiTurn : Int) : Int :=
  evaluateDiscDiff b aiTurn * 1000

/-- `_evaluate` for one weight record: position, mobility and discDiff
always contribute; stability, corner and frontier only when the weight
is present and `> 0` (the JS guard `w && w > 0`). -/
def evaluate (w : PhaseW) (b : Board) (aiTurn : Int) : ℚ :=
  (evaluatePosition b aiTurn : ℚ) * w.position +
    (evaluateMobility b aiTurn : ℚ) * w.mobility +
    (match w.stability with
      | some v => if 0 < v then (evaluateStability b aiTurn : ℚ) * v else 0
      | none => 0) +
    (evaluateDiscDiff b aiTurn : ℚ) * w.discDiff +
    (match w.corner with
      | some v => if 0 < v then (evaluateCorners b aiTurn : ℚ) * v else 0
      | none => 0) +
    (match w.frontier with
      | some v => if 0 < v then (evaluateFrontier b aiTurn : ℚ) * v else 0
      | none => 0)

/-! ### Search engine -/

/-- `_isTimeUp` sample number `t`: the JS clock is monotone, so a run's
samples are `false` before some index and `true` from it on; `none`
means the budget never expires during the call. -/
def isTimeUp (dl : Option Nat) (t : Nat) : Bool :=
  match dl with
  | none => false
  | some d => decide (d ≤ t)

/-- The ordering priority of `_orderMoves`: corner bonus, X-square and
C-square penalties, plus the static position weight. -/
def movePriority (m : Pos) : Int :=
  (if (m.r = 0 ∨ m.r = 7) ∧ (m.c = 0 ∨ m.c = 7) then 10000
    else if (m.r = 1 ∨ m.r = 6) ∧ (m.c = 1 ∨ m.c = 6) then -5000
    else if ((m.r = 0 ∨ m.r = 7) ∧ (m.c = 1 ∨ m.c = 6)) ∨
        ((m.r = 1 ∨ m.r = 6) ∧ (m.c = 0 ∨ m.c = 7)) then -3000
    else 0) + posWeight m.r m.c

/-- `_orderMoves`: stable sort by priority descending (JS `sort` is
stable; any stable sort under the same total preorder agrees). -/
def orderMoves (moves : List Pos) : List Pos :=
  moves.insertionSort fun a b => movePriority b ≤ movePriority a

/-- A scored root move (`{...move, score}`). -/
structure SMove where
  r : Int
  c : Int
  score : XVal
deriving DecidableEq, Repr

/-- `scoredMoves.sort((a, b) => b.score - a.score)`: stable descending. -/
def sortScored (l : List SMove) : List SMove :=
  l.insertionSort fun a b => b.score ≤ a.score

/-- `_selectMove` with the `Math.random()` draw `u` explicit; an index
outside the array (only possible for `u ∉ [0,1)` or negative
`randomness`) reads `undefined`, modelled as `none`. -/
def selectMove (scored : List SMove) (randomness : ℚ) (u : ℚ) : Option Pos :=
  if scored.isEmpty then none
  else
    let topN : ℚ := min randomness ((scored.length : ℚ) - 1)
    let index : Int := ⌊u * (topN + 1)⌋
    if index < 0 then none
    else (scored.get? index.toNat).map fun m => ⟨m.r, m.c⟩

/-- The maximising child loop of `_negamax`: fail-soft max with
`alpha = max alpha v` and break once `beta ≤ alpha`. -/
def abMaxLoop (child : Board → XVal → XVal → Nat → XVal × Nat)
    (b : Board) (turnOwner : Int) :
    List Pos → XVal → XVal → XVal → Nat → XVal × Nat
  | [], maxEval, _, _, t => (maxEval, t)
  | m :: ms, maxEval, alpha, beta, t =>
    let nb := (simulateMove b m.r m.c turnOwner).getD b
    let res := child nb alpha beta t
    let me2 := max maxEval res.1
    let a2 := max alpha res.1
    if beta ≤ a2 then (me2, res.2)
    else abMaxLoop child b turnOwner ms me2 a2 beta res.2

/-- The minimising child loop of `_negamax`. -/
def abMinLoop (child : Board → XVal → XVal → Nat → XVal × Nat)
    (b : Board) (turnOwner : Int) :
    List Pos → XVal → XVal → XVal → Nat → XVal × Nat
  | [], minEval, _, _, t => (minEval, t)
  | m :: ms, minEval, alpha, beta, t =>
    let nb := (simulateMove b m.r m.c turnOwner).getD b
    let res := child nb alpha beta t
    let me2 := min minEval res.1
    let b2 := min beta res.1
    if b2 ≤ alpha then (me2, res.2)
    else abMinLoop child b turnOwner ms me2 alpha b2 res.2

/-- `_negamax` (despite its name, a plain minimax with an
`isMaximizing` flag and alpha-beta pruning).  The node-entry
`depth === 0 || _isTimeUp()` short-circuits: depth 0 samples no clock. -/
def negamax (cfg : SearchConfig) (dl : Option Nat) (aiTurn : Int) (phase : Phase) :
    Nat → Board → XVal → XVal → Bool → Nat → XVal × Nat
  | 0, b, _, _, _, t => (xval (evaluate (getWeights cfg.weights phase) b aiTurn), t)
  | depth + 1, b, alpha, beta, isMax, t =>
    if isTimeUp dl t then
      (xval (evaluate (getWeights cfg.weights phase) b aiTurn), t + 1)
    else
      let turnOwner := if isMax then aiTurn else -aiTurn
      let validMoves := getValidMoves b turnOwner
      if validMoves.isEmpty then
        if (getValidMoves b (-turnOwner)).isEmpty then
          (xval ((evaluateFinal b aiTurn : Int) : ℚ), t + 1)
        else
          negamax cfg dl aiTurn phase depth b alpha beta (!isMax) (t + 1)
      else
        let ordered := if cfg.useMoveOrdering ∧ 2 ≤ depth + 1 then orderMoves validMoves
          else validMoves
        if isMax then
          abMaxLoop (fun nb a bb tt => negamax cfg dl aiTurn phase depth nb a bb false tt)
            b turnOwner ordered ⊥ alpha beta (t + 1)
        else
          abMinLoop (fun nb a bb tt => negamax cfg dl aiTurn phase depth nb a bb true tt)
            b turnOwner ordered ⊤ alpha beta (t + 1)

/-- The root-candidate loop of `_searchAtDepth`; `none` models the
`TIMEOUT` exception. -/
def rootLoop (cfg : SearchConfig) (dl : Option Nat) (aiTurn : Int) (phase : Phase)
    (b : Board) (depth : Nat) :
    List Pos → List SMove → Nat → Option (List SMove) × Nat
  | [], acc, t => (some acc, t)
  | m :: ms, acc, t =>
    if isTimeUp dl t then (none, t + 1)
    else
      let nb := (simulateMove b m.r m.c aiTurn).getD b
      let res := negamax cfg dl aiTurn phase (depth - 1) nb ⊥ ⊤ false (t + 1)
      rootLoop cfg dl aiTurn phase b depth ms (acc ++ [⟨m.r, m.c, res.1⟩]) res.2

/-- `_searchAtDepth`: order (when configured), score every root
candidate with a full window, sort descending. -/
def searchAtDepth (cfg : SearchConfig) (dl : Option Nat) (aiTurn : Int) (phase : Phase)
    (b : Board) (validMoves : List Pos) (depth : Nat) (t : Nat) :
    Option (List SMove) × Nat :=
  let ordered := if cfg.useMoveOrdering then orderMoves validMoves else validMoves
  let res := rootLoop cfg dl aiTurn phase b depth ordered [] t
  (res.1.map sortScored, res.2)

/-- The depth loop of `_iterativeDeepening`.  Returns the JS locals
`(bestMove, scoredMoves, lastCompletedDepth)` plus the clock. -/
def idLoop (cfg : SearchConfig) (dl : Option Nat) (aiTurn : Int) (phase : Phase)
    (b : Board) (validMoves : List Pos) (urand : Nat → ℚ) :
    List Nat → Option Pos → List SMove → Nat → Nat →
      Option Pos × List SMove × Nat × Nat
  | [], best, scored, lastD, t => (best, scored, lastD, t)
  | d :: ds, best, scored, lastD, t =>
    if isTimeUp dl t then (best, scored, lastD, t + 1)
    else
      match searchAtDepth cfg dl aiTurn phase b validMoves d (t + 1) with
      | (none, t2) => (best, scored, lastD, t2)
      | (some sc, t2) =>
          idLoop cfg dl aiTurn phase b validMoves urand ds
            (selectMove sc cfg.randomness (urand d)) sc d t2

/-- `_iterativeDeepening`: depths `1..maxDepth`, starting from
`validMoves[0]`. -/
def iterativeDeepening (cfg : SearchConfig) (dl : Option Nat) (aiTurn : Int)
    (phase : Phase) (b : Board) (validMoves : List Pos) (urand : Nat → ℚ)
    (t : Nat) : Option Pos × List SMove × Nat × Nat :=
  idLoop cfg dl aiTurn phase b validMoves urand
    ((List.range cfg.maxDepth.toNat).map fun i => i + 1) validMoves.head? [] 0 t

/-- Fuel bound for `_negamaxEndgame`: the JS recursion terminates within
`2·empty + 2` plies, far below 130 on an 8x8 board. -/
def endgameFuel : Nat := 130

/-- The maximising child loop of `_negamaxEndgame`: like `abMaxLoop`
but with a clock sample before every child. -/
def egMaxLoop (child : Board → XVal → XVal → Nat → XVal × Nat) (dl : Option Nat)
    (b : Board) (turnOwner : Int) :
    List Pos → XVal → XVal → XVal → Nat → XVal × Nat
  | [], maxEval, _, _, t => (maxEval, t)
  | m :: ms, maxEval, alpha, beta, t =>
    if isTimeUp dl t then (maxEval, t + 1)
    else
      let nb := (simulateMove b m.r m.c turnOwner).getD b
      let res := child nb alpha beta (t + 1)
      let me2 := max maxEval res.1
      let a2 := max alpha res.1
      if beta ≤ a2 then (me2, res.2)
      else egMaxLoop child dl b turnOwner ms me2 a2 beta res.2

/-- The minimising child loop of `_negamaxEndgame`. -/
def egMinLoop (child : Board → XVal → XVal → Nat → XVal × Nat) (dl : Option Nat)
    (b : Board) (turnOwner : Int) :
    List Pos → XVal → XVal → XVal → Nat → XVal × Nat
  | [], minEval, _, _, t => (minEval, t)
  | m :: ms, minEval, alpha, beta, t =>
    if isTimeUp dl t then (minEval, t + 1)
    else
      let nb := (simulateMove b m.r m.c turnOwner).getD b
      let res := child nb alpha beta (t + 1)
      let me2 := min minEval res.1
      let b2 := min beta res.1
      if b2 ≤ alpha then (me2, res.2)
      else egMinLoop child dl b turnOwner ms me2 alpha b2 res.2

/-- `_negamaxEndgame`: exhaustive search to the terminal position with
disc-difference scoring, mandatory move ordering, fuel-indexed (the JS
recursion always terminates; fuel 0 is unreachable from `endgameFuel`). -/
def negamaxEndgame (dl : Option Nat) (aiTurn : Int) :
    Nat → Board → XVal → XVal → Bool → Nat → XVal × Nat
  | 0, _, _, _, _, t => (xval 0, t)
  | fuel + 1, b, alpha, beta, isMax, t =>
    let turnOwner := if isMax then aiTurn else -aiTurn
    let validMoves := getValidMoves b turnOwner
    if validMoves.isEmpty then
      if (getValidMoves b (-turnOwner)).isEmpty then
        (xval ((evaluateFinal b aiTurn : Int) : ℚ), t)
      else
        negamaxEndgame dl aiTurn fuel b alpha beta (!isMax) t
    else
      let ordered := orderMoves validMoves
      if isMax then
        egMaxLoop (fun nb a bb tt => negamaxEndgame dl aiTurn fuel nb a bb false tt)
          dl b turnOwner ordered ⊥ alpha beta t
      else
        egMinLoop (fun nb a bb tt => negamaxEndgame dl aiTurn fuel nb a bb true tt)
          dl b turnOwner ordered ⊤ alpha beta t

/-- The root loop of `_perfectEndgame` (`break` on expiry keeps the
scores accumulated so far). -/
def peLoop (dl : Option Nat) (aiTurn : Int) (b : Board) :
    List Pos → List SMove → Nat → List SMove × Nat
  | [], acc, t => (acc, t)
  | m :: ms, acc, t =>
    if isTimeUp dl t then (acc, t + 1)
    else
      let nb := (simulateMove b m.r m.c aiTurn).getD b
      let res := negamaxEndgame dl aiTurn endgameFuel nb ⊥ ⊤ false (t + 1)
      peLoop dl aiTurn b ms (acc ++ [⟨m.r, m.c, res.1⟩]) res.2

/-- `_perfectEndgame`. -/
def perfectEndgame (cfg : SearchConfig) (dl : Option Nat) (aiTurn : Int)
    (b : Board) (validMoves : List Pos) (u : ℚ) (t : Nat) : Option Pos × Nat :=
  let ordered := orderMoves validMoves
  let res := peLoop dl aiTurn b ordered [] t
  (selectMove (sortScored res.1) cfg.randomness u, res.2)

/-- `computeMove` with the clock sample index it finished at.  Inputs:
board, side, raw profile, the expiry model `dl`, and the stream of
`Math.random()` draws. -/
def computeMoveT (b : Board) (turn : Int) (cfgObj : ConfigObj) (dl : Option Nat)
    (urand : Nat → ℚ) : Option Pos × Nat :=
  let cfg := normalizeConfig cfgObj
  let emptyCount := countEmpty b
  let currentTurn : Int := 64 - (emptyCount : Int) - 4 + 1
  let phase := getPhase currentTurn
  let validMoves := getValidMoves b turn
  if validMoves.isEmpty then (none, 0)
  else if validMoves.length = 1 then (validMoves.head?, 0)
  else if 0 < cfg.endgameSolverDepth ∧ (emptyCount : Int) ≤ cfg.endgameSolverDepth then
    perfectEndgame cfg dl turn b validMoves (urand 0) 0
  else
    let res := iterativeDeepening cfg dl turn phase b validMoves urand 0
    (res.1, res.2.2.2)

/-- The public `computeMove` result (`Move | null`). -/
def computeMove (b : Board) (turn : Int) (cfgObj : ConfigObj) (dl : Option Nat)
    (urand : Nat → ℚ) : Option Pos :=
  (computeMoveT b turn cfgObj dl urand).1

/-! ### C6: the evaluation sum -/

/-- The evaluation sum as the claim words it: a term is skipped exactly
when its configured weight is zero or absent, and every present weight,
including a negative one, is honoured as a signed scalar. -/
def specEvalClaim (w : PhaseW) (b : Board) (aiTurn : Int) : ℚ :=
  (if w.position ≠ 0 then (evaluatePosition b aiTurn : ℚ) * w.position else 0) +
  (if w.mobility ≠ 0 then (evaluateMobility b aiTurn : ℚ) * w.mobility else 0) +
  (match w.stability with
    | some v => if v ≠ 0 then (evaluateStability b aiTurn : ℚ) * v else 0
    | none => 0) +
  (if w.discDiff ≠ 0 then (evaluateDiscDiff b aiTurn : ℚ) * w.discDiff else 0) +
  (match w.corner with
    | some v => if v ≠ 0 then (evaluateCorners b aiTurn : ℚ) * v else 0
    | none => 0) +
  (match w.frontier with
    | some v => if v ≠ 0 then (evaluateFrontier b aiTurn : ℚ) * v else 0
    | none => 0)

/-- The evaluation sum as the code actually behaves: position, mobility
and discDiff are always honoured (zero weight contributing zero), while
stability, corner and frontier are included exactly when their weight is
present and strictly positive. -/
def specEvalAmended (w : PhaseW) (b : Board) (aiTurn : Int) : ℚ :=
  (if w.position ≠ 0 then (evaluatePosition b aiTurn : ℚ) * w.position else 0) +
  (if w.mobility ≠ 0 then (evaluateMobility b aiTurn : ℚ) * w.mobility else 0) +
  (match w.stability with
    | some v => if 0 < v then (evaluateStability b aiTurn : ℚ) * v else 0
    | none => 0) +
  (if w.discDiff ≠ 0 then (evaluateDiscDiff b aiTurn : ℚ) * w.discDiff else 0) +
  (match w.corner with
    | some v => if 0 < v then (evaluateCorners b aiTurn : ℚ) * v else 0
    | none => 0) +
  (match w.frontier with
    | some v => if 0 < v then (evaluateFrontier b aiTurn : ℚ) * v else 0
    | none => 0)

/-- A board with a single disc in the upper-left corner (counterexample
input for C6). -/
def cornerBoard : Board := mkBoard
  [[1, 0, 0, 0, 0, 0, 0, 0],
   [0, 0, 0, 0, 0, 0, 0, 0],
   [0, 0, 0, 0, 0, 0, 0, 0],
   [0, 0, 0, 0, 0, 0, 0, 0],
   [0, 0, 0, 0, 0, 0, 0, 0],
   [0, 0, 0, 0, 0, 0, 0, 0],
   [0, 0, 0, 0, 0, 0, 0, 0],
   [0, 0, 0, 0, 0, 0, 0, 0]]

/-- A weight record with a negative corner weight (counterexample input
for C6). -/
def negCornerW : PhaseW := ⟨0, 0, 0, none, some (-5), none⟩

/-- **C6 counterexample.** With a negative corner weight the evaluation
is not the claim's sum: the code skips the term instead of honouring the
signed scalar. -/
theorem evaluate_ne_specEvalClaim_cex :
    evaluate negCornerW cornerBoard 1 ≠ specEvalClaim negCornerW cornerBoard 1 := by
  have h4 : evaluateCorners cornerBoard 1 = 1 := by decide
  unfold evaluate specEvalClaim negCornerW
  norm_num [h4]

/-- **C6 (amended).** For every weight table, phase, board and side, the
heuristic evaluation equals the sum in which position, mobility and
discDiff are always honoured as signed scalars (zero weight contributing
zero), while stability, corner and frontier are included exactly when
their configured weight is present and strictly positive. -/
theorem evaluate_eq_specEvalAmended (wts : Weights) (ph : Phase) (b : Board)
    (side : Int) :
    evaluate (getWeights wts ph) b side = specEvalAmended (getWeights wts ph) b side := by
  set w := getWeights wts ph
  unfold evaluate specEvalAmended
  have req : ∀ (term wgt : ℚ), term * wgt = if wgt ≠ 0 then term * wgt else 0 := by
    intro term wgt
    by_cases h : wgt = 0
    · simp [h]
    · rw [if_pos h]
  rw [← req ((evaluatePosition b side : Int) : ℚ) w.position,
    ← req ((evaluateMobility b side : Int) : ℚ) w.mobility,
    ← req ((evaluateDiscDiff b side : Int) : ℚ) w.discDiff]

/-! ### C7: legacy depth conversion through normalisation -/

/-- **C7 counterexample.** A legacy profile with depth `0` does not
normalise to `maxDepth = 0 + 2` and `endgameSolverDepth = 0`: the falsy
depth falls back to the default `4`, giving `maxDepth = 6` and
`endgameSolverDepth = 8`. -/
theorem normalizeConfig_depth_zero_cex :
    (normalizeConfig ⟨none, some 0, none, none, none⟩).maxDepth = 6 ∧
      (normalizeConfig ⟨none, some 0, none, none, none⟩).maxDepth ≠ (0 : Int) + 2 ∧
      (normalizeConfig ⟨none, some 0, none, none, none⟩).endgameSolverDepth = 8 ∧
      (normalizeConfig ⟨none, some 0, none, none, none⟩).endgameSolverDepth ≠ 0 := by
  decide

/-- **C7 (amended).** Normalizing a legacy profile with nonzero integer
depth `d` yields `maxDepth` 2, 3, 4, 6 for `d` = 1, 2, 3, 4 and `d + 2`
for any other nonzero value, and `endgameSolverDepth` 8 for `d ≥ 4`,
else 4 for `d ≥ 3`, else 0; depth 0 is falsy in JS and is treated as the
absent default 4 (so it yields `maxDepth` 6 and `endgameSolverDepth` 8). -/
theorem normalizeConfig_legacy_depth (d : Int) (rnd : Option ℚ)
    (lt : Option LogicType) (par : Option LegacyParams) (hd : d ≠ 0) :
    (normalizeConfig ⟨none, some d, rnd, lt, par⟩).maxDepth =
      (if d = 1 then 2 else if d = 2 then 3 else if d = 3 then 4
        else if d = 4 then 6 else d + 2) ∧
    (normalizeConfig ⟨none, some d, rnd, lt, par⟩).endgameSolverDepth =
      (if 4 ≤ d then 8 else if 3 ≤ d then 4 else 0) := by
  unfold normalizeConfig jsOrI convertDepth endgameDepthFromOldDepth
  simp [hd]

theorem normalizeConfig_legacy_depth_witness :
    ((4 : Int) ≠ 0) ∧
      ((normalizeConfig ⟨none, some 4, none, none, none⟩).maxDepth =
        (if (4 : Int) = 1 then 2 else if (4 : Int) = 2 then 3
          else if (4 : Int) = 3 then 4 else if (4 : Int) = 4 then 6 else 4 + 2) ∧
      (normalizeConfig ⟨none, some 4, none, none, none⟩).endgameSolverDepth =
        (if (4 : Int) ≤ 4 then 8 else if (3 : Int) ≤ 4 then 4 else 0)) :=
  ⟨by decide, by
    have h := normalizeConfig_legacy_depth 4 none none none (by decide)
    constructor
    · exact h.1
    · rw [h.2]⟩

/-! ### C8: normalisation is not idempotent -/

/-- **C8 counterexample.** Feeding the canonical config of the modern
profile `{ai: {maxDepth: 2}}` back through normalisation does not
reproduce it: the canonical object has no `ai` marker, takes the legacy
path with default depth 4, and comes back with `maxDepth = 6`. -/
theorem normalize_not_idempotent_cex :
    normalizeConfig (configToObj (normalizeConfig
        ⟨some ⟨some 2, none, none, none, none, none⟩, none, none, none, none⟩)) ≠
      normalizeConfig ⟨some ⟨some 2, none, none, none, none, none⟩, none, none, none, none⟩ := by
  decide

/-- **C8 (amended).** Renormalising any profile's canonical config takes
the legacy branch (the canonical object has no `ai` field and, of the
legacy fields, only `randomness`): the result is the fixed legacy
default — `maxDepth` 6, `timeLimit` 2000, `endgameSolverDepth` 8,
`useMoveOrdering` true, static default weights — preserving only
`randomness`.  Normalisation is therefore idempotent only on profiles
whose canonical config already equals that default. -/
theorem normalize_renormalize (p : ConfigObj) :
    normalizeConfig (configToObj (normalizeConfig p)) =
      { maxDepth := 6
        timeLimit := 2000
        endgameSolverDepth := 8
        randomness := (normalizeConfig p).randomness
        useMoveOrdering := true
        weights :=
          { opening := ⟨30, 20, 10, some 0, some 50, none⟩
            midgame := ⟨30, 20, 10, some 10, some 50, none⟩
            endgame := ⟨30, 20, 10, some 20, some 50, none⟩ } } := by
  rfl

/-! ### C9: root selection with randomness -/

/-- Core description of `_selectMove` on a nonempty list with
`randomness ≥ 0` and a draw `u ∈ [0, 1)`: it returns entry
`⌊u·(topN+1)⌋` where `topN = min randomness (length − 1)`. -/
theorem selectMove_spec_aux (scored : List SMove) (rnd u : ℚ)
    (hne : scored ≠ []) (hr : 0 ≤ rnd) (hu0 : 0 ≤ u) (hu1 : u < 1) :
    ∃ (i : Nat) (m : SMove),
      ((i : ℚ) < min rnd ((scored.length : ℚ) - 1) + 1) ∧
      scored.get? i = some m ∧
      selectMove scored rnd u = some ⟨m.r, m.c⟩ := by
  have hlen : 1 ≤ scored.length := List.length_pos.mpr hne
  have hn1 : (1 : ℚ) ≤ (scored.length : ℚ) := by exact_mod_cast hlen
  have hT0 : 0 ≤ min rnd ((scored.length : ℚ) - 1) := le_min hr (by linarith)
  have hprod0 : 0 ≤ u * (min rnd ((scored.length : ℚ) - 1) + 1) :=
    mul_nonneg hu0 (by linarith)
  have h0 : (0 : Int) ≤ ⌊u * (min rnd ((scored.length : ℚ) - 1) + 1)⌋ :=
    Int.floor_nonneg.mpr hprod0
  have hne2 : ¬(scored.isEmpty = true) := by simpa using hne
  have hsel : selectMove scored rnd u =
      (scored.get? (⌊u * (min rnd ((scored.length : ℚ) - 1) + 1)⌋).toNat).map
        (fun m => (⟨m.r, m.c⟩ : Pos)) := by
    simp only [selectMove]
    rw [if_neg hne2, if_neg (not_lt.mpr h0)]
  have hprodlt : u * (min rnd ((scored.length : ℚ) - 1) + 1) <
      min rnd ((scored.length : ℚ) - 1) + 1 := by
    have hstep : u * (min rnd ((scored.length : ℚ) - 1) + 1) <
        1 * (min rnd ((scored.length : ℚ) - 1) + 1) :=
      mul_lt_mul_of_pos_right hu1 (by linarith)
    linarith
  have hltq : ((⌊u * (min rnd ((scored.length : ℚ) - 1) + 1)⌋ : Int) : ℚ) <
      min rnd ((scored.length : ℚ) - 1) + 1 :=
    lt_of_le_of_lt (Int.floor_le _) hprodlt
  have hcast : (((⌊u * (min rnd ((scored.length : ℚ) - 1) + 1)⌋).toNat : Nat) : ℚ) =
      ((⌊u * (min rnd ((scored.length : ℚ) - 1) + 1)⌋ : Int) : ℚ) := by
    exact_mod_cast Int.toNat_of_nonneg h0
  have hiq : (((⌊u * (min rnd ((scored.length : ℚ) - 1) + 1)⌋).toNat : Nat) : ℚ) <
      min rnd ((scored.length : ℚ) - 1) + 1 := by
    rw [hcast]
    exact hltq
  have hidxlen : (⌊u * (min rnd ((scored.length : ℚ) - 1) + 1)⌋).toNat <
      scored.length := by
    have hchain : (((⌊u * (min rnd ((scored.length : ℚ) - 1) + 1)⌋).toNat : Nat) : ℚ) <
        (scored.length : ℚ) :=
      lt_of_lt_of_le hiq (by have := min_le_right rnd ((scored.length : ℚ) - 1); linarith)
    exact_mod_cast hchain
  refine ⟨(⌊u * (min rnd ((scored.length : ℚ) - 1) + 1)⌋).toNat,
    scored.get ⟨_, hidxlen⟩, hiq, (List.get?_eq_get hidxlen), ?_⟩
  rw [hsel, List.get?_eq_get hidxlen]
  rfl

/-- **C9.** With root candidates sorted by score descending, `n ≥ 1`
candidates and integer randomness `k`, the selected move is always among
the top `min(k, n−1) + 1` by score, and `k = 0` always selects the
single best (first) move. -/
theorem selectMove_top_k (scored : List SMove) (k : Nat) (u : ℚ)
    (hne : scored ≠ [])
    (hsort : scored.Sorted fun a b => b.score ≤ a.score)
    (hu0 : 0 ≤ u) (hu1 : u < 1) :
    (∃ m ∈ scored.take (min k (scored.length - 1) + 1),
        selectMove scored (k : ℚ) u = some ⟨m.r, m.c⟩) ∧
    (k = 0 → ∃ m, scored.head? = some m ∧
        selectMove scored (k : ℚ) u = some ⟨m.r, m.c⟩) := by
  have hlen : 1 ≤ scored.length := List.length_pos.mpr hne
  obtain ⟨i, m, hbound, hget, hsel⟩ :=
    selectMove_spec_aux scored (k : ℚ) u hne (by positivity) hu0 hu1
  have hminc : ((min k (scored.length - 1) : Nat) : ℚ) =
      min (k : ℚ) ((scored.length : ℚ) - 1) := by
    rw [Nat.cast_min, Nat.cast_sub hlen, Nat.cast_one]
  have hik : i < min k (scored.length - 1) + 1 := by
    have hq : (i : ℚ) < ((min k (scored.length - 1) : Nat) : ℚ) + 1 := by
      rw [hminc]
      exact hbound
    exact_mod_cast hq
  constructor
  · refine ⟨m, ?_, hsel⟩
    apply List.get?_mem
    rw [List.get?_eq_getElem?, List.getElem?_take_of_lt hik, ← List.get?_eq_getElem?]
    exact hget
  · rintro rfl
    have hi0 : i = 0 := by omega
    subst hi0
    exact ⟨m, by rw [← List.get?_zero]; exact hget, hsel⟩

/-- A two-candidate scored list for the C9 witness. -/
def twoScored : List SMove := [⟨0, 0, xval 5⟩, ⟨1, 1, xval 3⟩]

theorem xval_le_xval {a b : ℚ} (h : a ≤ b) : xval a ≤ xval b := by
  unfold xval
  exact_mod_cast h

theorem twoScored_sorted : twoScored.Sorted fun a b => b.score ≤ a.score := by
  unfold twoScored
  refine List.Pairwise.cons ?_ (List.pairwise_singleton _ _)
  intro b hb
  rw [List.mem_singleton] at hb
  subst hb
  exact xval_le_xval (by norm_num)

theorem selectMove_top_k_witness :
    (twoScored ≠ [] ∧ (twoScored.Sorted fun a b => b.score ≤ a.score) ∧
      (0 : ℚ) ≤ 1 / 2 ∧ (1 / 2 : ℚ) < 1) ∧
    ((∃ m ∈ twoScored.take (min 1 (twoScored.length - 1) + 1),
        selectMove twoScored ((1 : Nat) : ℚ) (1 / 2) = some ⟨m.r, m.c⟩) ∧
      ((1 : Nat) = 0 → ∃ m, twoScored.head? = some m ∧
        selectMove twoScored ((1 : Nat) : ℚ) (1 / 2) = some ⟨m.r, m.c⟩)) :=
  ⟨⟨by simp [twoScored], twoScored_sorted, by norm_num, by norm_num⟩,
    selectMove_top_k twoScored 1 (1 / 2) (by simp [twoScored]) twoScored_sorted
      (by norm_num) (by norm_num)⟩

/-! ### C1: when `computeMove` returns null -/

theorem orderMoves_length (l : List Pos) : (orderMoves l).length = l.length :=
  (List.perm_insertionSort _ l).length_eq

theorem sortScored_length (l : List SMove) : (sortScored l).length = l.length :=
  (List.perm_insertionSort _ l).length_eq

theorem sortScored_ne_nil {l : List SMove} (h : l ≠ []) : sortScored l ≠ [] := by
  intro hc
  apply h
  have := sortScored_length l
  rw [hc] at this
  exact List.length_eq_zero.mp this.symm

theorem selectMove_ne_none (scored : List SMove) (rnd u : ℚ)
    (hne : scored ≠ []) (hr : 0 ≤ rnd) (hu0 : 0 ≤ u) (hu1 : u < 1) :
    selectMove scored rnd u ≠ none := by
  obtain ⟨i, m, _, _, h⟩ := selectMove_spec_aux scored rnd u hne hr hu0 hu1
  rw [h]
  exact Option.some_ne_none _

theorem isTimeUp_zero (dl : Option Nat) : isTimeUp dl 0 = true ↔ dl = some 0 := by
  cases dl with
  | none => simp [isTimeUp]
  | some d =>
    simp only [isTimeUp, decide_eq_true_eq, Option.some.injEq]
    omega

/-- The accumulator of the `_perfectEndgame` root loop never shrinks. -/
theorem peLoop_acc_ne (dl : Option Nat) (aiTurn : Int) (b : Board)
    (ms : List Pos) : ∀ (acc : List SMove) (t : Nat), acc ≠ [] →
      (peLoop dl aiTurn b ms acc t).1 ≠ [] := by
  induction ms with
  | nil =>
    intro acc t h
    simpa [peLoop] using h
  | cons m ms ih =>
    intro acc t h
    rw [peLoop]
    by_cases htu : isTimeUp dl t = true
    · simpa [htu] using h
    · rw [if_neg htu]
      exact ih _ _ (by simp)

/-- A completed `_searchAtDepth` root loop scores every candidate handed
to it. -/
theorem rootLoop_some_length (cfg : SearchConfig) (dl : Option Nat) (aiTurn : Int)
    (phase : Phase) (b : Board) (depth : Nat) (ms : List Pos) :
    ∀ (acc : List SMove) (t : Nat) (l : List SMove),
      (rootLoop cfg dl aiTurn phase b depth ms acc t).1 = some l →
      l.length = acc.length + ms.length := by
  induction ms with
  | nil =>
    intro acc t l h
    rw [rootLoop] at h
    simp only [Option.some.injEq] at h
    subst h
    simp
  | cons m ms ih =>
    intro acc t l h
    rw [rootLoop] at h
    by_cases htu : isTimeUp dl t = true
    · rw [if_pos htu] at h
      exact absurd h (by simp)
    · rw [if_neg htu] at h
      have := ih _ _ _ h
      simp only [List.length_append, List.length_singleton] at this
      simp only [List.length_cons]
      omega

/-- A `_searchAtDepth` that returns (rather than throwing `TIMEOUT`)
returns a nonempty scored list whenever it was given candidates. -/
theorem searchAtDepth_some_ne_nil (cfg : SearchConfig) (dl : Option Nat)
    (aiTurn : Int) (phase : Phase) (b : Board) (validMoves : List Pos)
    (d t : Nat) (l : List SMove) (hvm : validMoves ≠ [])
    (h : (searchAtDepth cfg dl aiTurn phase b validMoves d t).1 = some l) :
    l ≠ [] := by
  unfold searchAtDepth at h
  simp only [Option.map_eq_some'] at h
  obtain ⟨l0, h0, hl⟩ := h
  have hlen := rootLoop_some_length cfg dl aiTurn phase b d _ [] t l0 h0
  have hord : (if cfg.useMoveOrdering then orderMoves validMoves else validMoves).length
      = validMoves.length := by
    by_cases hc : cfg.useMoveOrdering
    · rw [if_pos hc, orderMoves_length]
    · rw [if_neg hc]
  rw [hord] at hlen
  have hpos : 0 < validMoves.length := List.length_pos.mpr hvm
  subst hl
  apply sortScored_ne_nil
  intro hc
  rw [hc] at hlen
  simp at hlen
  omega

/-- The deepening loop's `bestMove` never degrades from a move back to
null (given a nonempty candidate list, nonnegative randomness and
in-range random draws). -/
theorem idLoop_ne_none (cfg : SearchConfig) (dl : Option Nat) (aiTurn : Int)
    (phase : Phase) (b : Board) (validMoves : List Pos) (urand : Nat → ℚ)
    (hvm : validMoves ≠ []) (hr : 0 ≤ cfg.randomness)
    (hu : ∀ i, 0 ≤ urand i ∧ urand i < 1) (ds : List Nat) :
    ∀ (best : Option Pos) (scored : List SMove) (lastD t : Nat), best ≠ none →
      (idLoop cfg dl aiTurn phase b validMoves urand ds best scored lastD t).1 ≠
        none := by
  induction ds with
  | nil =>
    intro best scored lastD t h
    simpa [idLoop] using h
  | cons d ds ih =>
    intro best scored lastD t h
    rw [idLoop]
    by_cases htu : isTimeUp dl t = true
    · simpa [htu] using h
    · rw [if_neg htu]
      rcases hsd : searchAtDepth cfg dl aiTurn phase b validMoves d (t + 1)
        with ⟨os, t2⟩
      cases os with
      | none => simpa using h
      | some sc =>
        have hsc : sc ≠ [] :=
          searchAtDepth_some_ne_nil cfg dl aiTurn phase b validMoves d (t + 1) sc
            hvm (by rw [hsd])
        exact ih _ _ _ _
          (selectMove_ne_none sc cfg.randomness (urand d) hsc hr (hu d).1 (hu d).2)

/-- A nearly full board where Black (`1`) still has two legal moves,
`(0,0)` and `(7,7)`. -/
def cexBoard : Board := mkBoard
  [[0, -1, 1, 1, 1, 1, 1, 1],
   [1, 1, 1, 1, 1, 1, 1, 1],
   [1, 1, 1, 1, 1, 1, 1, 1],
   [1, 1, 1, 1, 1, 1, 1, 1],
   [-1, -1, -1, -1, -1, -1, -1, -1],
   [1, 1, 1, 1, 1, 1, 1, 1],
   [1, 1, 1, 1, 1, 1, 1, 1],
   [1, 1, 1, 1, 1, -1, -1, 0]]

/-- A legacy profile `{depth: 4, randomness: 0, logicType: "static"}`:
it normalizes to `endgameSolverDepth = 8`, so on `cexBoard` (2 empty
cells) the exact endgame solver is entered. -/
def legacy4 : ConfigObj := ⟨none, some 4, some 0, some .staticType, none⟩

/-- Counterexample to C1 as worded: on `cexBoard` Black has two legal
moves, yet with the time budget already expired at the first root check
(`dl = some 0`) the endgame path accumulates no scored move and
`computeMove` returns null. -/
theorem computeMove_null_with_moves_cex :
    computeMove cexBoard 1 legacy4 (some 0) (fun _ => 0) = none ∧
      getValidMoves cexBoard 1 ≠ [] := by
  constructor
  · decide
  · decide

/-- **C1 (amended).** `computeMove` returns null iff the side to move
has no legal move, **or** the exact-endgame path is taken (at least two
legal moves, `0 < endgameSolverDepth` and `empty ≤ endgameSolverDepth`)
and the budget is already expired at the very first clock sample. -/
theorem computeMove_none_iff (b : Board) (turn : Int) (co : ConfigObj)
    (dl : Option Nat) (urand : Nat → ℚ)
    (hrand : 0 ≤ (normalizeConfig co).randomness)
    (hu : ∀ i, 0 ≤ urand i ∧ urand i < 1) :
    computeMove b turn co dl urand = none ↔
      getValidMoves b turn = [] ∨
        (2 ≤ (getValidMoves b turn).length ∧
          0 < (normalizeConfig co).endgameSolverDepth ∧
          (countEmpty b : Int) ≤ (normalizeConfig co).endgameSolverDepth ∧
          dl = some 0) := by
  unfold computeMove computeMoveT
  cases hmv : getValidMoves b turn with
  | nil => simp
  | cons m ms =>
    cases ms with
    | nil => simp
    | cons m2 ms2 =>
      rw [if_neg (by simp : ¬((m :: m2 :: ms2).isEmpty = true)),
        if_neg (by simp : ¬((m :: m2 :: ms2).length = 1))]
      by_cases heg : 0 < (normalizeConfig co).endgameSolverDepth ∧
          (countEmpty b : Int) ≤ (normalizeConfig co).endgameSolverDepth
      · rw [if_pos heg]
        have hrhs : ((m :: m2 :: ms2) = [] ∨
            (2 ≤ (m :: m2 :: ms2).length ∧
              0 < (normalizeConfig co).endgameSolverDepth ∧
              (countEmpty b : Int) ≤ (normalizeConfig co).endgameSolverDepth ∧
              dl = some 0)) ↔ dl = some 0 := by
          constructor
          · intro h
            rcases h with h | h
            · exact absurd h (by simp)
            · exact h.2.2.2
          · intro h
            exact Or.inr ⟨by simp [List.length_cons], heg.1, heg.2, h⟩
        rw [hrhs]
        simp only [perfectEndgame]
        have hone : orderMoves (m :: m2 :: ms2) ≠ [] := by
          intro hc
          have := orderMoves_length (m :: m2 :: ms2)
          rw [hc] at this
          simp at this
        obtain ⟨o, os, hoe⟩ := List.exists_cons_of_ne_nil hone
        rw [hoe, peLoop]
        by_cases hdl0 : isTimeUp dl 0 = true
        · rw [if_pos hdl0]
          constructor
          · intro _
            exact (isTimeUp_zero dl).mp hdl0
          · intro _
            simp [sortScored, selectMove]
        · rw [if_neg hdl0]
          have hstep : ∀ (x : SMove) (t' : Nat),
              (peLoop dl turn b os ([] ++ [x]) t').1 ≠ [] :=
            fun x t' => peLoop_acc_ne dl turn b os ([] ++ [x]) t' (by simp)
          constructor
          · intro hc
            exact absurd hc (selectMove_ne_none _ _ _
              (sortScored_ne_nil (hstep _ _)) hrand (hu 0).1 (hu 0).2)
          · intro hc
            exact absurd ((isTimeUp_zero dl).mpr hc) hdl0
      · rw [if_neg heg]
        have hrhs : ¬((m :: m2 :: ms2) = [] ∨
            (2 ≤ (m :: m2 :: ms2).length ∧
              0 < (normalizeConfig co).endgameSolverDepth ∧
              (countEmpty b : Int) ≤ (normalizeConfig co).endgameSolverDepth ∧
              dl = some 0)) := by
          intro h
          rcases h with h | h
          · exact absurd h (by simp)
          · exact heg ⟨h.2.1, h.2.2.1⟩
        rw [iff_false_intro hrhs, iff_false]
        unfold iterativeDeepening
        exact idLoop_ne_none (normalizeConfig co) dl turn _ b (m :: m2 :: ms2) urand
          (by simp) hrand hu _ (some m) [] 0 0 (by simp)

theorem computeMove_none_iff_witness :
    0 ≤ (normalizeConfig legacy4).randomness ∧
    (computeMove cexBoard 1 legacy4 (some 0) (fun _ => 0) = none ↔
      getValidMoves cexBoard 1 = [] ∨
        (2 ≤ (getValidMoves cexBoard 1).length ∧
          0 < (normalizeConfig legacy4).endgameSolverDepth ∧
          (countEmpty cexBoard : Int) ≤ (normalizeConfig legacy4).endgameSolverDepth ∧
          (some 0 : Option Nat) = some 0)) :=
  ⟨by decide,
    computeMove_none_iff cexBoard 1 legacy4 (some 0) (fun _ => 0) (by decide)
      (fun _ => ⟨le_refl 0, by norm_num⟩)⟩

/-! ### C5: what the deepening loop returns -/

/-- A disc-difference-only weight set (all phases). -/
def discW : Weights :=
  ⟨⟨0, 0, 1, none, none, none⟩, ⟨0, 0, 1, none, none, none⟩, ⟨0, 0, 1, none, none, none⟩⟩

/-- A modern profile: heuristic search to depth 2, no endgame solver, no
randomness, no move ordering. -/
def modern2 : ConfigObj :=
  ⟨some ⟨some 2, none, none, some 0, none, some discW⟩, none, none, none, none⟩

/-- The same profile limited to depth 1. -/
def modern1 : ConfigObj :=
  ⟨some ⟨some 1, none, none, some 0, none, some discW⟩, none, none, none, none⟩

/-- A position (White just filled the top; Black to move, 12 empty
cells, two legal moves) reached by self-play from the start position. -/
def b5 : Board := mkBoard
  [[-1, -1, -1, -1, -1, -1, -1, -1],
   [-1, -1, -1, -1, -1, -1, -1, 0],
   [-1, -1, -1, 1, 1, 1, 1, -1],
   [-1, -1, -1, 1, -1, 1, 1, -1],
   [-1, 0, -1, 1, 1, -1, 1, -1],
   [0, 0, 0, 1, -1, -1, -1, -1],
   [0, 0, 0, 1, 1, 1, 1, -1],
   [0, 0, 0, 1, 1, 1, 1, 0]]

/-- Counterexample to C5 as worded: with the budget expiring at clock
sample 7 — during the second (last) root candidate's subtree at depth
2 — the interrupted depth still completes its root loop with a degraded
leaf value and its answer `(5,1)` is returned, although depth 1 (which
completed fully, identically to its untimed run) answers `(4,1)` and the
untimed depth-2 run also answers `(4,1)`. -/
theorem iterativeDeepening_partial_depth_cex :
    computeMove b5 1 modern2 (some 7) (fun _ => 0) = some ⟨5, 1⟩ ∧
    computeMove b5 1 modern2 none (fun _ => 0) = some ⟨4, 1⟩ ∧
    computeMove b5 1 modern1 (some 7) (fun _ => 0) = some ⟨4, 1⟩ ∧
    computeMove b5 1 modern1 none (fun _ => 0) = some ⟨4, 1⟩ ∧
    (⟨5, 1⟩ : Pos) ≠ ⟨4, 1⟩ := by
  set_option maxRecDepth 100000 in with_unfolding_all decide

/-- With a never-expiring budget the `.1` (value) component of `_negamax`
does not depend on the clock sample index, for the maximising loop. -/
theorem abMaxLoop_fst_clock (cf : Board → XVal → XVal → Nat → XVal × Nat)
    (hcf : ∀ nb a bb t t', (cf nb a bb t).1 = (cf nb a bb t').1)
    (b : Board) (tw : Int) :
    ∀ (ms : List Pos) (me α β : XVal) (t t' : Nat),
      (abMaxLoop cf b tw ms me α β t).1 = (abMaxLoop cf b tw ms me α β t').1 := by
  intro ms
  induction ms with
  | nil => intro me α β t t'; simp [abMaxLoop]
  | cons m ms ih =>
    intro me α β t t'
    simp only [abMaxLoop]
    rw [hcf ((simulateMove b m.r m.c tw).getD b) α β t t']
    by_cases hc : β ≤ max α (cf ((simulateMove b m.r m.c tw).getD b) α β t').1
    · rw [if_pos hc, if_pos hc]
    · rw [if_neg hc, if_neg hc]
      exact ih _ _ _ _ _

/-- The minimising-loop analogue of `abMaxLoop_fst_clock`. -/
theorem abMinLoop_fst_clock (cf : Board → XVal → XVal → Nat → XVal × Nat)
    (hcf : ∀ nb a bb t t', (cf nb a bb t).1 = (cf nb a bb t').1)
    (b : Board) (tw : Int) :
    ∀ (ms : List Pos) (me α β : XVal) (t t' : Nat),
      (abMinLoop cf b tw ms me α β t).1 = (abMinLoop cf b tw ms me α β t').1 := by
  intro ms
  induction ms with
  | nil => intro me α β t t'; simp [abMinLoop]
  | cons m ms ih =>
    intro me α β t t'
    simp only [abMinLoop]
    rw [hcf ((simulateMove b m.r m.c tw).getD b) α β t t']
    by_cases hc : min β (cf ((simulateMove b m.r m.c tw).getD b) α β t').1 ≤ α
    · rw [if_pos hc, if_pos hc]
    · rw [if_neg hc, if_neg hc]
      exact ih _ _ _ _ _

/-- With `dl = none` the value returned by `_negamax` is independent of
the clock sample index. -/
theorem negamax_fst_clock (cfg : SearchConfig) (aiTurn : Int) (phase : Phase) :
    ∀ (depth : Nat) (b : Board) (α β : XVal) (isMax : Bool) (t t' : Nat),
      (negamax cfg none aiTurn phase depth b α β isMax t).1 =
        (negamax cfg none aiTurn phase depth b α β isMax t').1 := by
  intro depth
  induction depth with
  | zero => intro b α β isMax t t'; simp [negamax]
  | succ depth ih =>
    intro b α β isMax t t'
    simp only [negamax]
    rw [if_neg (by simp [isTimeUp] : ¬(isTimeUp none t = true)),
      if_neg (by simp [isTimeUp] : ¬(isTimeUp none t' = true))]
    by_cases hvm : (getValidMoves b (if isMax then aiTurn else -aiTurn)).isEmpty = true
    · rw [if_pos hvm, if_pos hvm]
      by_cases hvm2 : (getValidMoves b
          (-(if isMax then aiTurn else -aiTurn))).isEmpty = true
      · rw [if_pos hvm2, if_pos hvm2]
      · rw [if_neg hvm2, if_neg hvm2]
        exact ih _ _ _ _ _ _
    · rw [if_neg hvm, if_neg hvm]
      cases isMax with
      | true =>
        simp only [if_pos rfl]
        exact abMaxLoop_fst_clock _ (fun nb a bb s s' => ih nb a bb false s s') b _ _
          ⊥ _ _ _ _
      | false =>
        simp only [Bool.false_eq_true, if_false]
        exact abMinLoop_fst_clock _ (fun nb a bb s s' => ih nb a bb true s s') b _ _
          ⊤ _ _ _ _

/-- The root scores of one `_searchAtDepth` pass with a never-expiring
budget, in candidate order. -/
def rootScores (cfg : SearchConfig) (aiTurn : Int) (phase : Phase) (b : Board)
    (depth : Nat) (ms : List Pos) : List SMove :=
  ms.map fun m => ⟨m.r, m.c,
    (negamax cfg none aiTurn phase (depth - 1) ((simulateMove b m.r m.c aiTurn).getD b)
      ⊥ ⊤ false 0).1⟩

/-- With `dl = none` the root loop never throws and scores every
candidate. -/
theorem rootLoop_none (cfg : SearchConfig) (aiTurn : Int) (phase : Phase)
    (b : Board) (depth : Nat) :
    ∀ (ms : List Pos) (acc : List SMove) (t : Nat),
      (rootLoop cfg none aiTurn phase b depth ms acc t).1 =
        some (acc ++ rootScores cfg aiTurn phase b depth ms) := by
  intro ms
  induction ms with
  | nil => intro acc t; simp [rootLoop, rootScores]
  | cons m ms ih =>
    intro acc t
    rw [rootLoop, if_neg (by simp [isTimeUp] : ¬(isTimeUp none t = true))]
    rw [ih]
    rw [negamax_fst_clock cfg aiTurn phase (depth - 1)
      ((simulateMove b m.r m.c aiTurn).getD b) ⊥ ⊤ false (t + 1) 0]
    simp [rootScores]

/-- With `dl = none`, `_searchAtDepth` returns the sorted scores of all
its (possibly ordered) candidates. -/
theorem searchAtDepth_none (cfg : SearchConfig) (aiTurn : Int) (phase : Phase)
    (b : Board) (validMoves : List Pos) (d t : Nat) :
    (searchAtDepth cfg none aiTurn phase b validMoves d t).1 =
      some (sortScored (rootScores cfg aiTurn phase b d
        (if cfg.useMoveOrdering then orderMoves validMoves else validMoves))) := by
  simp only [searchAtDepth]
  rw [rootLoop_none]
  simp

/-- With `dl = none` the deepening loop runs every depth and keeps the
last one's selection. -/
theorem idLoop_none_last (cfg : SearchConfig) (aiTurn : Int) (phase : Phase)
    (b : Board) (validMoves : List Pos) (urand : Nat → ℚ) :
    ∀ (ds : List Nat) (dLast : Nat) (best : Option Pos) (scored : List SMove)
      (lastD t : Nat), ds.getLast? = some dLast →
      (idLoop cfg none aiTurn phase b validMoves urand ds best scored lastD t).1 =
        selectMove (sortScored (rootScores cfg aiTurn phase b dLast
          (if cfg.useMoveOrdering then orderMoves validMoves else validMoves)))
          cfg.randomness (urand dLast) := by
  intro ds
  induction ds with
  | nil => intro dLast best scored lastD t h; simp at h
  | cons d ds ih =>
    intro dLast best scored lastD t h
    rw [idLoop, if_neg (by simp [isTimeUp] : ¬(isTimeUp none t = true))]
    rw [show searchAtDepth cfg none aiTurn phase b validMoves d (t + 1) =
        (some (sortScored (rootScores cfg aiTurn phase b d
          (if cfg.useMoveOrdering then orderMoves validMoves else validMoves))),
         (searchAtDepth cfg none aiTurn phase b validMoves d (t + 1)).2) from by
      rw [← searchAtDepth_none cfg aiTurn phase b validMoves d (t + 1)]]
    cases ds with
    | nil =>
      simp only [List.getLast?_singleton, Option.some.injEq] at h
      subst h
      simp [idLoop]
    | cons d2 ds2 =>
      rw [List.getLast?_cons_cons] at h
      exact ih dLast _ _ _ _ h

/-- **C5 (amended).** With a budget that never expires, the move
returned by `_iterativeDeepening` is the deepest (`maxDepth`) pass's
selection over its sorted root scores — i.e. the last *completed* depth
decides. (When the budget does expire mid-depth the worded claim fails:
see the counterexample, where the interrupted depth's degraded answer is
returned.) -/
theorem iterativeDeepening_last_depth (cfg : SearchConfig) (aiTurn : Int)
    (phase : Phase) (b : Board) (validMoves : List Pos) (urand : Nat → ℚ)
    (t : Nat) (hd : cfg.maxDepth.toNat ≠ 0) :
    (iterativeDeepening cfg none aiTurn phase b validMoves urand t).1 =
      selectMove (sortScored (rootScores cfg aiTurn phase b cfg.maxDepth.toNat
        (if cfg.useMoveOrdering then orderMoves validMoves else validMoves)))
        cfg.randomness (urand cfg.maxDepth.toNat) := by
  unfold iterativeDeepening
  apply idLoop_none_last
  obtain ⟨k, hk⟩ := Nat.exists_eq_succ_of_ne_zero hd
  rw [hk, List.range_succ, List.map_append]
  simp

theorem iterativeDeepening_last_depth_witness :
    (normalizeConfig modern1).maxDepth.toNat ≠ 0 ∧
    (iterativeDeepening (normalizeConfig modern1) none 1 Phase.endgame b5
        (getValidMoves b5 1) (fun _ => 0) 0).1 =
      selectMove (sortScored (rootScores (normalizeConfig modern1) 1 Phase.endgame b5
        (normalizeConfig modern1).maxDepth.toNat
        (if (normalizeConfig modern1).useMoveOrdering then
          orderMoves (getValidMoves b5 1) else getValidMoves b5 1)))
        (normalizeConfig modern1).randomness ((fun _ => (0 : ℚ))
          (normalizeConfig modern1).maxDepth.toNat) :=
  ⟨by decide,
    iterativeDeepening_last_depth (normalizeConfig modern1) 1 Phase.endgame b5
      (getValidMoves b5 1) (fun _ => 0) 0 (by decide)⟩

/-! ### C4: alpha-beta equals full-width minimax -/

/-- Spec-side naive full-width minimax to a fixed depth with the same
leaf evaluation as `_negamax`: no pruning, no move ordering, no clock. -/
def specMinimax (cfg : SearchConfig) (aiTurn : Int) (phase : Phase) :
    Nat → Board → Bool → XVal
  | 0, b, _ => xval (evaluate (getWeights cfg.weights phase) b aiTurn)
  | depth + 1, b, isMax =>
    let turnOwner := if isMax then aiTurn else -aiTurn
    let validMoves := getValidMoves b turnOwner
    if validMoves.isEmpty then
      if (getValidMoves b (-turnOwner)).isEmpty then
        xval ((evaluateFinal b aiTurn : Int) : ℚ)
      else specMinimax cfg aiTurn phase depth b (!isMax)
    else if isMax then
      validMoves.foldl (fun acc m => max acc (specMinimax cfg aiTurn phase depth
        ((simulateMove b m.r m.c turnOwner).getD b) false)) ⊥
    else
      validMoves.foldl (fun acc m => min acc (specMinimax cfg aiTurn phase depth
        ((simulateMove b m.r m.c turnOwner).getD b) true)) ⊤

/-- Spec-side game value under terminal disc-difference scoring: naive
full-width search to the end of the game, fuel-indexed like
`_negamaxEndgame`. -/
def specGameValue (aiTurn : Int) : Nat → Board → Bool → XVal
  | 0, _, _ => xval 0
  | fuel + 1, b, isMax =>
    let turnOwner := if isMax then aiTurn else -aiTurn
    let validMoves := getValidMoves b turnOwner
    if validMoves.isEmpty then
      if (getValidMoves b (-turnOwner)).isEmpty then
        xval ((evaluateFinal b aiTurn : Int) : ℚ)
      else specGameValue aiTurn fuel b (!isMax)
    else if isMax then
      validMoves.foldl (fun acc m => max acc (specGameValue aiTurn fuel
        ((simulateMove b m.r m.c turnOwner).getD b) false)) ⊥
    else
      validMoves.foldl (fun acc m => min acc (specGameValue aiTurn fuel
        ((simulateMove b m.r m.c turnOwner).getD b) true)) ⊤

/-- The Knuth–Moore fail-soft contract of an alpha-beta value `r`
against the true value `w` in window `(α, β)`: failing low bounds `w`
from above, failing high bounds it from below, and inside the window the
value is exact. -/
def failSoft (r w α β : XVal) : Prop :=
  (r ≤ α → w ≤ r) ∧ (β ≤ r → r ≤ w) ∧ (α < r → r < β → r = w)

theorem failSoft_refl (r α β : XVal) : failSoft r r α β :=
  ⟨fun _ => le_refl r, fun _ => le_refl r, fun _ _ => rfl⟩

/-- At the full window `(−∞, ∞)` the fail-soft contract is equality. -/
theorem failSoft_full {r w : XVal} (h : failSoft r w ⊥ ⊤) : r = w := by
  obtain ⟨h1, h2, h3⟩ := h
  rcases le_or_lt r ⊥ with hb | hb
  · have hr : r = ⊥ := le_bot_iff.mp hb
    exact le_antisymm (hr ▸ bot_le) (h1 hb)
  · rcases lt_or_le r ⊤ with ht | ht
    · exact h3 hb ht
    · exact le_antisymm (h2 ht) (le_top.trans ht)

theorem le_foldl_max (val : Pos → XVal) :
    ∀ (ms : List Pos) (i : XVal), i ≤ ms.foldl (fun a m => max a (val m)) i := by
  intro ms
  induction ms with
  | nil => intro i; exact le_refl i
  | cons m ms ih =>
    intro i
    exact le_trans (le_max_left i (val m)) (ih (max i (val m)))

theorem foldl_max_mono (val : Pos → XVal) :
    ∀ (ms : List Pos) {i j : XVal}, i ≤ j →
      ms.foldl (fun a m => max a (val m)) i ≤ ms.foldl (fun a m => max a (val m)) j := by
  intro ms
  induction ms with
  | nil => intro i j h; exact h
  | cons m ms ih => intro i j h; exact ih (max_le_max h (le_refl (val m)))

theorem foldl_max_absorb (val : Pos → XVal) :
    ∀ (ms : List Pos) (c i : XVal),
      ms.foldl (fun a m => max a (val m)) (max c i) =
        max c (ms.foldl (fun a m => max a (val m)) i) := by
  intro ms
  induction ms with
  | nil => intro c i; rfl
  | cons m ms ih =>
    intro c i
    show ms.foldl _ (max (max c i) (val m)) = max c (ms.foldl _ (max i (val m)))
    rw [max_assoc, ih]

theorem foldl_min_le (val : Pos → XVal) :
    ∀ (ms : List Pos) (i : XVal), ms.foldl (fun a m => min a (val m)) i ≤ i := by
  intro ms
  induction ms with
  | nil => intro i; exact le_refl i
  | cons m ms ih =>
    intro i
    exact le_trans (ih (min i (val m))) (min_le_left i (val m))

theorem foldl_min_mono (val : Pos → XVal) :
    ∀ (ms : List Pos) {i j : XVal}, i ≤ j →
      ms.foldl (fun a m => min a (val m)) i ≤ ms.foldl (fun a m => min a (val m)) j := by
  intro ms
  induction ms with
  | nil => intro i j h; exact h
  | cons m ms ih => intro i j h; exact ih (min_le_min h (le_refl (val m)))

theorem foldl_min_absorb (val : Pos → XVal) :
    ∀ (ms : List Pos) (c i : XVal),
      ms.foldl (fun a m => min a (val m)) (min c i) =
        min c (ms.foldl (fun a m => min a (val m)) i) := by
  intro ms
  induction ms with
  | nil => intro c i; rfl
  | cons m ms ih =>
    intro c i
    show ms.foldl _ (min (min c i) (val m)) = min c (ms.foldl _ (min i (val m)))
    rw [min_assoc, ih]

/-- Loop invariant of the maximising alpha-beta child loop: if every
child value satisfies the fail-soft contract against its true value,
the loop result satisfies it against `max` of the accumulator and all
true child values, relative to the *entry* alpha `α₀`. -/
theorem abMaxLoop_failSoft (cf : Board → XVal → XVal → Nat → XVal × Nat)
    (b : Board) (tw : Int) (val : Pos → XVal)
    (hchild : ∀ (m : Pos) (α β : XVal) (t : Nat), α < β →
      failSoft (cf ((simulateMove b m.r m.c tw).getD b) α β t).1 (val m) α β)
    (α₀ β : XVal) :
    ∀ (ms : List Pos) (me : XVal) (t : Nat), max α₀ me < β →
      failSoft (abMaxLoop cf b tw ms me (max α₀ me) β t).1
        (ms.foldl (fun acc m => max acc (val m)) me) α₀ β := by
  intro ms
  induction ms with
  | nil =>
    intro me t hlt
    exact failSoft_refl me α₀ β
  | cons m ms ih =>
    intro me t hlt
    have hα₀β : α₀ < β := lt_of_le_of_lt (le_max_left α₀ me) hlt
    simp only [abMaxLoop, List.foldl_cons]
    have hc := hchild m (max α₀ me) β t hlt
    by_cases hpr : β ≤ max (max α₀ me) (cf ((simulateMove b m.r m.c tw).getD b)
        (max α₀ me) β t).1
    · rw [if_pos hpr]
      have hβv : β ≤ (cf ((simulateMove b m.r m.c tw).getD b) (max α₀ me) β t).1 := by
        rcases le_max_iff.mp hpr with h | h
        · exact absurd h (not_le.mpr hlt)
        · exact h
      have hβme2 : β ≤ max me (cf ((simulateMove b m.r m.c tw).getD b)
          (max α₀ me) β t).1 :=
        le_trans hβv (le_max_right _ _)
      refine ⟨?_, ?_, ?_⟩
      · intro hle
        exact absurd (lt_of_le_of_lt (hβme2.trans hle) hα₀β) (lt_irrefl β)
      · intro _
        calc max me (cf ((simulateMove b m.r m.c tw).getD b) (max α₀ me) β t).1
            ≤ max me (val m) := max_le_max (le_refl me) (hc.2.1 hβv)
          _ ≤ ms.foldl (fun acc m => max acc (val m)) (max me (val m)) :=
              le_foldl_max val ms _
      · intro _ hrβ
        exact absurd hβme2 (not_le.mpr hrβ)
    · rw [if_neg hpr]
      rw [max_assoc] at hpr ⊢
      have hlt2 : max α₀ (max me (cf ((simulateMove b m.r m.c tw).getD b)
          (max α₀ me) β t).1) < β := not_le.mp hpr
      have IH := ih (max me (cf ((simulateMove b m.r m.c tw).getD b)
        (max α₀ me) β t).1) ((cf ((simulateMove b m.r m.c tw).getD b)
          (max α₀ me) β t).2) hlt2
      by_cases hva : (cf ((simulateMove b m.r m.c tw).getD b) (max α₀ me) β t).1 ≤
          max α₀ me
      · have hsv : val m ≤ (cf ((simulateMove b m.r m.c tw).getD b)
            (max α₀ me) β t).1 := hc.1 hva
        have hWW' : ms.foldl (fun acc m => max acc (val m)) (max me (val m)) ≤
            ms.foldl (fun acc m => max acc (val m)) (max me
              (cf ((simulateMove b m.r m.c tw).getD b) (max α₀ me) β t).1) :=
          foldl_max_mono val ms (max_le_max (le_refl me) hsv)
        have hW'W : ms.foldl (fun acc m => max acc (val m)) (max me
            (cf ((simulateMove b m.r m.c tw).getD b) (max α₀ me) β t).1) ≤
            max α₀ (ms.foldl (fun acc m => max acc (val m)) (max me (val m))) := by
          have h1 : max me (cf ((simulateMove b m.r m.c tw).getD b)
              (max α₀ me) β t).1 ≤ max α₀ (max me (val m)) := by
            apply max_le
            · exact le_trans (le_max_left me (val m)) (le_max_right α₀ _)
            · exact le_trans hva (max_le_max (le_refl α₀)
                (le_max_left me (val m)))
          calc ms.foldl (fun acc m => max acc (val m)) (max me
              (cf ((simulateMove b m.r m.c tw).getD b) (max α₀ me) β t).1)
              ≤ ms.foldl (fun acc m => max acc (val m)) (max α₀ (max me (val m))) :=
                foldl_max_mono val ms h1
            _ = max α₀ (ms.foldl (fun acc m => max acc (val m)) (max me (val m))) :=
                foldl_max_absorb val ms α₀ _
        obtain ⟨ih1, ih2, ih3⟩ := IH
        refine ⟨?_, ?_, ?_⟩
        · intro hr
          exact hWW'.trans (ih1 hr)
        · intro hr
          have hα₀r := lt_of_lt_of_le hα₀β hr
          rcases le_max_iff.mp ((ih2 hr).trans hW'W) with h | h
          · exact absurd h (not_le.mpr hα₀r)
          · exact h
        · intro hαr hrβ
          have heq := ih3 hαr hrβ
          have hW_le := heq ▸ hWW'
          rcases le_max_iff.mp (heq ▸ hW'W) with h | h
          · exact absurd h (not_le.mpr hαr)
          · exact le_antisymm h hW_le
      · have hva' := not_le.mp hva
        have hvβ : (cf ((simulateMove b m.r m.c tw).getD b) (max α₀ me) β t).1 < β := by
          by_contra h
          exact hpr (le_trans (not_lt.mp h)
            (le_trans (le_max_right me _) (le_max_right α₀ _)))
        have heq : (cf ((simulateMove b m.r m.c tw).getD b) (max α₀ me) β t).1 =
            val m := hc.2.2 hva' hvβ
        rw [← heq]
        exact IH

/-- Loop invariant of the minimising alpha-beta child loop (dual of
`abMaxLoop_failSoft`, relative to the entry beta `β₀`). -/
theorem abMinLoop_failSoft (cf : Board → XVal → XVal → Nat → XVal × Nat)
    (b : Board) (tw : Int) (val : Pos → XVal)
    (hchild : ∀ (m : Pos) (α β : XVal) (t : Nat), α < β →
      failSoft (cf ((simulateMove b m.r m.c tw).getD b) α β t).1 (val m) α β)
    (α β₀ : XVal) :
    ∀ (ms : List Pos) (me : XVal) (t : Nat), α < min β₀ me →
      failSoft (abMinLoop cf b tw ms me α (min β₀ me) t).1
        (ms.foldl (fun acc m => min acc (val m)) me) α β₀ := by
  intro ms
  induction ms with
  | nil =>
    intro me t hlt
    exact failSoft_refl me α β₀
  | cons m ms ih =>
    intro me t hlt
    have hαβ₀ : α < β₀ := lt_of_lt_of_le hlt (min_le_left β₀ me)
    simp only [abMinLoop, List.foldl_cons]
    have hc := hchild m α (min β₀ me) t hlt
    by_cases hpr : min (min β₀ me) (cf ((simulateMove b m.r m.c tw).getD b)
        α (min β₀ me) t).1 ≤ α
    · rw [if_pos hpr]
      have hvα : (cf ((simulateMove b m.r m.c tw).getD b) α (min β₀ me) t).1 ≤ α := by
        rcases min_le_iff.mp hpr with h | h
        · exact absurd h (not_le.mpr hlt)
        · exact h
      have hme2α : min me (cf ((simulateMove b m.r m.c tw).getD b)
          α (min β₀ me) t).1 ≤ α :=
        le_trans (min_le_right _ _) hvα
      refine ⟨?_, ?_, ?_⟩
      · intro _
        calc ms.foldl (fun acc m => min acc (val m)) (min me (val m))
            ≤ min me (val m) := foldl_min_le val ms _
          _ ≤ min me (cf ((simulateMove b m.r m.c tw).getD b) α (min β₀ me) t).1 :=
              min_le_min (le_refl me) (hc.1 hvα)
      · intro hr
        exact absurd (hr.trans hme2α) (not_le.mpr hαβ₀)
      · intro hαr _
        exact absurd hme2α (not_le.mpr hαr)
    · rw [if_neg hpr]
      rw [min_assoc] at hpr ⊢
      have hlt2 : α < min β₀ (min me (cf ((simulateMove b m.r m.c tw).getD b)
          α (min β₀ me) t).1) := not_le.mp hpr
      have IH := ih (min me (cf ((simulateMove b m.r m.c tw).getD b)
        α (min β₀ me) t).1) ((cf ((simulateMove b m.r m.c tw).getD b)
          α (min β₀ me) t).2) hlt2
      by_cases hvb : min β₀ me ≤ (cf ((simulateMove b m.r m.c tw).getD b)
          α (min β₀ me) t).1
      · have hsv : (cf ((simulateMove b m.r m.c tw).getD b) α (min β₀ me) t).1 ≤
            val m := hc.2.1 hvb
        have hW'W : ms.foldl (fun acc m => min acc (val m)) (min me
            (cf ((simulateMove b m.r m.c tw).getD b) α (min β₀ me) t).1) ≤
            ms.foldl (fun acc m => min acc (val m)) (min me (val m)) :=
          foldl_min_mono val ms (min_le_min (le_refl me) hsv)
        have hWW' : min β₀ (ms.foldl (fun acc m => min acc (val m))
            (min me (val m))) ≤ ms.foldl (fun acc m => min acc (val m)) (min me
              (cf ((simulateMove b m.r m.c tw).getD b) α (min β₀ me) t).1) := by
          have h1 : min β₀ (min me (val m)) ≤ min me
              (cf ((simulateMove b m.r m.c tw).getD b) α (min β₀ me) t).1 := by
            apply le_min
            · exact le_trans (min_le_right β₀ _) (min_le_left me _)
            · exact le_trans (min_le_min (le_refl β₀) (min_le_left me (val m))) hvb
          calc min β₀ (ms.foldl (fun acc m => min acc (val m)) (min me (val m)))
              = ms.foldl (fun acc m => min acc (val m)) (min β₀ (min me (val m))) :=
                (foldl_min_absorb val ms β₀ _).symm
            _ ≤ ms.foldl (fun acc m => min acc (val m)) (min me
                (cf ((simulateMove b m.r m.c tw).getD b) α (min β₀ me) t).1) :=
                foldl_min_mono val ms h1
        obtain ⟨ih1, ih2, ih3⟩ := IH
        refine ⟨?_, ?_, ?_⟩
        · intro hr
          rcases min_le_iff.mp (hWW'.trans (ih1 hr)) with h | h
          · exact absurd (h.trans hr) (not_le.mpr hαβ₀)
          · exact h
        · intro hr
          exact (ih2 hr).trans hW'W
        · intro hαr hrβ
          have heq := ih3 hαr hrβ
          have h2 := heq ▸ hWW'
          have h3 := heq ▸ hW'W
          rcases min_le_iff.mp h2 with h | h
          · exact absurd (lt_of_le_of_lt h hrβ) (lt_irrefl β₀)
          · exact le_antisymm h3 h
      · have hvb' := not_le.mp hvb
        have hαv : α < (cf ((simulateMove b m.r m.c tw).getD b) α (min β₀ me) t).1 := by
          by_contra h
          exact hpr (le_trans (le_trans (min_le_right β₀ _) (min_le_right me _))
            (not_lt.mp h))
        have heq : (cf ((simulateMove b m.r m.c tw).getD b) α (min β₀ me) t).1 =
            val m := hc.2.2 hαv hvb'
        rw [← heq]
        exact IH

/-- The either-branch candidate order of `_negamax` is a permutation of
the raw candidate list. -/
theorem ordered_perm (c : Prop) [Decidable c] (l : List Pos) :
    List.Perm (if c then orderMoves l else l) l := by
  by_cases h : c
  · rw [if_pos h]
    exact List.perm_insertionSort _ l
  · rw [if_neg h]

theorem foldl_max_perm (val : Pos → XVal) {l₁ l₂ : List Pos} (p : List.Perm l₁ l₂)
    (i : XVal) :
    l₁.foldl (fun acc m => max acc (val m)) i =
      l₂.foldl (fun acc m => max acc (val m)) i :=
  p.foldl_eq' (fun x _ y _ z => by rw [max_assoc, max_comm (val x), ← max_assoc]) i

theorem foldl_min_perm (val : Pos → XVal) {l₁ l₂ : List Pos} (p : List.Perm l₁ l₂)
    (i : XVal) :
    l₁.foldl (fun acc m => min acc (val m)) i =
      l₂.foldl (fun acc m => min acc (val m)) i :=
  p.foldl_eq' (fun x _ y _ z => by rw [min_assoc, min_comm (val x), ← min_assoc]) i

/-- `_negamax` with a never-expiring budget satisfies the fail-soft
contract against the naive full-width minimax at every window. -/
theorem negamax_failSoft (cfg : SearchConfig) (aiTurn : Int) (phase : Phase) :
    ∀ (depth : Nat) (b : Board) (isMax : Bool) (α β : XVal) (t : Nat), α < β →
      failSoft (negamax cfg none aiTurn phase depth b α β isMax t).1
        (specMinimax cfg aiTurn phase depth b isMax) α β := by
  intro depth
  induction depth with
  | zero =>
    intro b isMax α β t hαβ
    simp only [negamax, specMinimax]
    exact failSoft_refl _ α β
  | succ depth ih =>
    intro b isMax α β t hαβ
    simp only [negamax, specMinimax]
    rw [if_neg (by simp [isTimeUp] : ¬(isTimeUp none t = true))]
    by_cases hvm : (getValidMoves b (if isMax then aiTurn else -aiTurn)).isEmpty = true
    · rw [if_pos hvm, if_pos hvm]
      by_cases hvm2 : (getValidMoves b
          (-(if isMax then aiTurn else -aiTurn))).isEmpty = true
      · rw [if_pos hvm2, if_pos hvm2]
        exact failSoft_refl _ α β
      · rw [if_neg hvm2, if_neg hvm2]
        exact ih b (!isMax) α β (t + 1) hαβ
    · rw [if_neg hvm, if_neg hvm]
      cases isMax with
      | true =>
        simp only [if_pos rfl]
        have H := abMaxLoop_failSoft
          (fun nb a bb tt => negamax cfg none aiTurn phase depth nb a bb false tt)
          b aiTurn
          (fun m => specMinimax cfg aiTurn phase depth
            ((simulateMove b m.r m.c aiTurn).getD b) false)
          (fun m α' β' t' h' => ih _ false α' β' t' h') α β
          (if cfg.useMoveOrdering ∧ 2 ≤ depth + 1 then
            orderMoves (getValidMoves b aiTurn) else getValidMoves b aiTurn)
          ⊥ (t + 1) (by rw [max_eq_left bot_le]; exact hαβ)
        rw [max_eq_left bot_le] at H
        rw [foldl_max_perm _ (ordered_perm _ (getValidMoves b aiTurn)) ⊥] at H
        exact H
      | false =>
        simp only [Bool.false_eq_true, if_false]
        have H := abMinLoop_failSoft
          (fun nb a bb tt => negamax cfg none aiTurn phase depth nb a bb true tt)
          b (-aiTurn)
          (fun m => specMinimax cfg aiTurn phase depth
            ((simulateMove b m.r m.c (-aiTurn)).getD b) true)
          (fun m α' β' t' h' => ih _ true α' β' t' h') α β
          (if cfg.useMoveOrdering ∧ 2 ≤ depth + 1 then
            orderMoves (getValidMoves b (-aiTurn)) else getValidMoves b (-aiTurn))
          ⊤ (t + 1) (by rw [min_eq_left le_top]; exact hαβ)
        rw [min_eq_left le_top] at H
        rw [foldl_min_perm _ (ordered_perm _ (getValidMoves b (-aiTurn))) ⊤] at H
        exact H

/-- With a never-expiring budget the endgame child loop is the plain
alpha-beta child loop (the per-child clock sample shifts the index). -/
theorem egMaxLoop_none_eq (cf : Board → XVal → XVal → Nat → XVal × Nat)
    (b : Board) (tw : Int) :
    ∀ (ms : List Pos) (me α β : XVal) (t : Nat),
      egMaxLoop cf none b tw ms me α β t =
        abMaxLoop (fun nb a bb tt => cf nb a bb (tt + 1)) b tw ms me α β t := by
  intro ms
  induction ms with
  | nil => intro me α β t; rfl
  | cons m ms ih =>
    intro me α β t
    rw [egMaxLoop, if_neg (by simp [isTimeUp] : ¬(isTimeUp none t = true))]
    rw [abMaxLoop]
    by_cases hc : β ≤ max α (cf ((simulateMove b m.r m.c tw).getD b) α β (t + 1)).1
    · rw [if_pos hc, if_pos hc]
    · rw [if_neg hc, if_neg hc]
      exact ih _ _ _ _

theorem egMinLoop_none_eq (cf : Board → XVal → XVal → Nat → XVal × Nat)
    (b : Board) (tw : Int) :
    ∀ (ms : List Pos) (me α β : XVal) (t : Nat),
      egMinLoop cf none b tw ms me α β t =
        abMinLoop (fun nb a bb tt => cf nb a bb (tt + 1)) b tw ms me α β t := by
  intro ms
  induction ms with
  | nil => intro me α β t; rfl
  | cons m ms ih =>
    intro me α β t
    rw [egMinLoop, if_neg (by simp [isTimeUp] : ¬(isTimeUp none t = true))]
    rw [abMinLoop]
    by_cases hc : min β (cf ((simulateMove b m.r m.c tw).getD b) α β (t + 1)).1 ≤ α
    · rw [if_pos hc, if_pos hc]
    · rw [if_neg hc, if_neg hc]
      exact ih _ _ _ _

/-- `_negamaxEndgame` with a never-expiring budget satisfies the
fail-soft contract against the fuel-matched naive full-width game
value. -/
theorem negamaxEndgame_failSoft (aiTurn : Int) :
    ∀ (fuel : Nat) (b : Board) (isMax : Bool) (α β : XVal) (t : Nat), α < β →
      failSoft (negamaxEndgame none aiTurn fuel b α β isMax t).1
        (specGameValue aiTurn fuel b isMax) α β := by
  intro fuel
  induction fuel with
  | zero =>
    intro b isMax α β t hαβ
    simp only [negamaxEndgame, specGameValue]
    exact failSoft_refl _ α β
  | succ fuel ih =>
    intro b isMax α β t hαβ
    simp only [negamaxEndgame, specGameValue]
    by_cases hvm : (getValidMoves b (if isMax then aiTurn else -aiTurn)).isEmpty = true
    · rw [if_pos hvm, if_pos hvm]
      by_cases hvm2 : (getValidMoves b
          (-(if isMax then aiTurn else -aiTurn))).isEmpty = true
      · rw [if_pos hvm2, if_pos hvm2]
        exact failSoft_refl _ α β
      · rw [if_neg hvm2, if_neg hvm2]
        exact ih b (!isMax) α β t hαβ
    · rw [if_neg hvm, if_neg hvm]
      cases isMax with
      | true =>
        simp only [if_pos rfl]
        rw [egMaxLoop_none_eq]
        have H := abMaxLoop_failSoft
          (fun nb a bb tt => negamaxEndgame none aiTurn fuel nb a bb false (tt + 1))
          b aiTurn
          (fun m => specGameValue aiTurn fuel
            ((simulateMove b m.r m.c aiTurn).getD b) false)
          (fun m α' β' t' h' => ih _ false α' β' (t' + 1) h') α β
          (orderMoves (getValidMoves b aiTurn))
          ⊥ t (by rw [max_eq_left bot_le]; exact hαβ)
        rw [max_eq_left bot_le] at H
        have hp : List.Perm (orderMoves (getValidMoves b aiTurn))
            (getValidMoves b aiTurn) := List.perm_insertionSort _ _
        rw [foldl_max_perm _ hp ⊥] at H
        exact H
      | false =>
        simp only [Bool.false_eq_true, if_false]
        rw [egMinLoop_none_eq]
        have H := abMinLoop_failSoft
          (fun nb a bb tt => negamaxEndgame none aiTurn fuel nb a bb true (tt + 1))
          b (-aiTurn)
          (fun m => specGameValue aiTurn fuel
            ((simulateMove b m.r m.c (-aiTurn)).getD b) true)
          (fun m α' β' t' h' => ih _ true α' β' (t' + 1) h') α β
          (orderMoves (getValidMoves b (-aiTurn)))
          ⊤ t (by rw [min_eq_left le_top]; exact hαβ)
        rw [min_eq_left le_top] at H
        have hp : List.Perm (orderMoves (getValidMoves b (-aiTurn)))
            (getValidMoves b (-aiTurn)) := List.perm_insertionSort _ _
        rw [foldl_min_perm _ hp ⊤] at H
        exact H

/-- A legal move always yields a board. -/
theorem simulateMove_isSome {b : Board} {r c turn : Int}
    (h : canPlace b r c turn = true) : ∃ b2, simulateMove b r c turn = some b2 :=
  ⟨_, by rw [simulateMove, if_pos h]⟩

/-- Playing a legal move fills exactly one empty cell. -/
theorem countEmpty_pos {b b2 : Board} {r c turn : Int}
    (hturn : turn = 1 ∨ turn = -1) (hleg : canPlace b r c turn = true)
    (h : simulateMove b r c turn = some b2) :
    countEmpty b2 + 1 = countEmpty b := by
  have hrc : bounded r c := canPlace_bounded hleg
  have hturn0 : turn ≠ 0 := by rcases hturn with rfl | rfl <;> omega
  have hb0 : bget b r c = 0 := (canPlace_iff.mp hleg).1
  have hpw := simulateMove_pointwise hturn hleg
  rw [simulateMove, if_pos hleg, Option.some_inj] at h
  simp only [h] at hpw
  have hrn : r.toNat < 8 := by unfold bounded at hrc; omega
  have hcn : c.toNat < 8 := by unfold bounded at hrc; omega
  have her : ((r.toNat : Nat) : Int) = r := Int.toNat_of_nonneg hrc.1
  have hec : ((c.toNat : Nat) : Int) = c := Int.toNat_of_nonneg hrc.2.2.1
  have key : ∀ p : Fin 8 × Fin 8,
      bget b2 (p.1 : Int) (p.2 : Int) = 0 ↔
        (bget b (p.1 : Int) (p.2 : Int) = 0 ∧
          ¬((p.1 : Int) = r ∧ (p.2 : Int) = c)) := by
    intro p
    by_cases horig : ((p.1 : Int) = r ∧ (p.2 : Int) = c)
    · rw [hpw _ _, if_pos (Or.inl horig)]
      simp [horig, hturn0]
    · by_cases hf : flippedCell b r c turn dirList (p.1 : Int) (p.2 : Int)
      · rw [hpw _ _, if_pos (Or.inr hf)]
        have hbp : bget b (p.1 : Int) (p.2 : Int) = -turn := flippedCell_opp hf
        constructor
        · intro h0
          exact absurd h0 hturn0
        · rintro ⟨h0, -⟩
          rw [hbp] at h0
          omega
      · rw [hpw _ _, if_neg (fun hor => Or.elim hor horig hf)]
        simp [horig]
  have hiff : ∀ p : Fin 8 × Fin 8,
      ((p.1 : Int) = r ∧ (p.2 : Int) = c) ↔
        p = ((⟨r.toNat, hrn⟩ : Fin 8), (⟨c.toNat, hcn⟩ : Fin 8)) := by
    intro p
    constructor
    · rintro ⟨e1, e2⟩
      have g1 : p.1 = (⟨r.toNat, hrn⟩ : Fin 8) := by
        apply Fin.ext
        have gg : ((p.1.val : Nat) : Int) = ((r.toNat : Nat) : Int) := by
          rw [her]
          exact_mod_cast e1
        exact_mod_cast gg
      have g2 : p.2 = (⟨c.toNat, hcn⟩ : Fin 8) := by
        apply Fin.ext
        have gg : ((p.2.val : Nat) : Int) = ((c.toNat : Nat) : Int) := by
          rw [hec]
          exact_mod_cast e2
        exact_mod_cast gg
      exact Prod.ext g1 g2
    · rintro rfl
      exact ⟨by simpa using her, by simpa using hec⟩
  have horigin :
      bget b (((⟨r.toNat, hrn⟩ : Fin 8) : Nat) : Int)
        (((⟨c.toNat, hcn⟩ : Fin 8) : Nat) : Int) = 0 := by
    show bget b ((r.toNat : Nat) : Int) ((c.toNat : Nat) : Int) = 0
    rw [her, hec]
    exact hb0
  have hmem : ((⟨r.toNat, hrn⟩ : Fin 8), (⟨c.toNat, hcn⟩ : Fin 8)) ∈
      (Finset.univ : Finset (Fin 8 × Fin 8)).filter
        (fun p => bget b (p.1 : Int) (p.2 : Int) = 0) := by
    rw [Finset.mem_filter]
    exact ⟨Finset.mem_univ _, horigin⟩
  have hset :
      ((Finset.univ : Finset (Fin 8 × Fin 8)).filter fun p =>
        bget b2 (p.1 : Int) (p.2 : Int) = 0) =
      ((Finset.univ : Finset (Fin 8 × Fin 8)).filter fun p =>
        bget b (p.1 : Int) (p.2 : Int) = 0).erase
        ((⟨r.toNat, hrn⟩ : Fin 8), (⟨c.toNat, hcn⟩ : Fin 8)) := by
    apply Finset.ext
    intro p
    rw [Finset.mem_erase, Finset.mem_filter, Finset.mem_filter, key p]
    constructor
    · rintro ⟨-, h0, hno⟩
      exact ⟨fun he => hno ((hiff p).mpr he), Finset.mem_univ p, h0⟩
    · rintro ⟨hne, -, h0⟩
      exact ⟨Finset.mem_univ p, h0, fun he => hne ((hiff p).mp he)⟩
  have hpos : 0 < ((Finset.univ : Finset (Fin 8 × Fin 8)).filter fun p =>
      bget b (p.1 : Int) (p.2 : Int) = 0).card :=
    Finset.card_pos.mpr ⟨_, hmem⟩
  unfold countEmpty
  rw [hset, Finset.card_erase_of_mem hmem]
  omega

theorem foldl_max_congr (val val' : Pos → XVal) :
    ∀ (ms : List Pos) (i : XVal), (∀ m ∈ ms, val m = val' m) →
      ms.foldl (fun a m => max a (val m)) i =
        ms.foldl (fun a m => max a (val' m)) i := by
  intro ms
  induction ms with
  | nil => intro i _; rfl
  | cons m ms ih =>
    intro i h
    show ms.foldl _ (max i (val m)) = ms.foldl _ (max i (val' m))
    rw [h m (List.mem_cons_self m ms)]
    exact ih _ (fun x hx => h x (List.mem_cons_of_mem m hx))

theorem foldl_min_congr (val val' : Pos → XVal) :
    ∀ (ms : List Pos) (i : XVal), (∀ m ∈ ms, val m = val' m) →
      ms.foldl (fun a m => min a (val m)) i =
        ms.foldl (fun a m => min a (val' m)) i := by
  intro ms
  induction ms with
  | nil => intro i _; rfl
  | cons m ms ih =>
    intro i h
    show ms.foldl _ (min i (val m)) = ms.foldl _ (min i (val' m))
    rw [h m (List.mem_cons_self m ms)]
    exact ih _ (fun x hx => h x (List.mem_cons_of_mem m hx))

/-- The fuel-indexed game value stabilises: any fuel of at least
`2·empty + 2` (two plies per move played, plus a final pass level and
the terminal level) yields the same value — the true game value. -/
theorem specGameValue_stable (aiTurn : Int) (hturn : aiTurn = 1 ∨ aiTurn = -1) :
    ∀ (n : Nat) (b : Board) (isMax : Bool) (m : Nat),
      2 * countEmpty b + 2 ≤ n → 2 * countEmpty b + 2 ≤ m →
      specGameValue aiTurn n b isMax = specGameValue aiTurn m b isMax := by
  intro n
  induction n using Nat.strong_induction_on with
  | _ n IH =>
    intro b isMax m hn hm
    obtain ⟨n₁, rfl⟩ : ∃ n₁, n = n₁ + 1 := ⟨n - 1, by omega⟩
    obtain ⟨m₁, rfl⟩ : ∃ m₁, m = m₁ + 1 := ⟨m - 1, by omega⟩
    have key : ∀ (tw : Int), tw = 1 ∨ tw = -1 → ∀ (k₁ k₂ : Nat), k₁ < n₁ + 1 →
        2 * countEmpty b ≤ k₁ → 2 * countEmpty b ≤ k₂ → ∀ (isMax' : Bool),
        ∀ m' ∈ getValidMoves b tw,
          specGameValue aiTurn k₁ ((simulateMove b m'.r m'.c tw).getD b) isMax' =
            specGameValue aiTurn k₂ ((simulateMove b m'.r m'.c tw).getD b) isMax' := by
      intro tw htw k₁ k₂ hlt h1 h2 isMax' m' hm'
      have hcp := (mem_getValidMoves.mp hm').2
      obtain ⟨b2, hb2⟩ := simulateMove_isSome hcp
      rw [hb2]
      simp only [Option.getD_some]
      have hce := countEmpty_pos htw hcp hb2
      exact IH k₁ hlt b2 isMax' k₂ (by omega) (by omega)
    simp only [specGameValue]
    by_cases hvm : (getValidMoves b (if isMax then aiTurn else -aiTurn)).isEmpty = true
    · rw [if_pos hvm, if_pos hvm]
      by_cases hvm2 : (getValidMoves b
          (-(if isMax then aiTurn else -aiTurn))).isEmpty = true
      · rw [if_pos hvm2, if_pos hvm2]
      · rw [if_neg hvm2, if_neg hvm2]
        obtain ⟨n₂, rfl⟩ : ∃ n₂, n₁ = n₂ + 1 := ⟨n₁ - 1, by omega⟩
        obtain ⟨m₂, rfl⟩ : ∃ m₂, m₁ = m₂ + 1 := ⟨m₁ - 1, by omega⟩
        simp only [specGameValue]
        have hneg : (if !isMax then aiTurn else -aiTurn) =
            -(if isMax then aiTurn else -aiTurn) := by
          cases isMax <;> simp
        rw [hneg]
        rw [if_neg hvm2, if_neg hvm2]
        have htw' : -(if isMax then aiTurn else -aiTurn) = 1 ∨
            -(if isMax then aiTurn else -aiTurn) = -1 := by
          rcases hturn with rfl | rfl <;> cases isMax <;> simp
        cases hbm : !isMax with
        | true =>
          simp only [if_pos rfl]
          exact foldl_max_congr _ _ _ ⊥
            (key _ htw' n₂ m₂ (by omega) (by omega) (by omega) false)
        | false =>
          simp only [Bool.false_eq_true, if_false]
          exact foldl_min_congr _ _ _ ⊤
            (key _ htw' n₂ m₂ (by omega) (by omega) (by omega) true)
    · rw [if_neg hvm, if_neg hvm]
      have htw : (if isMax then aiTurn else -aiTurn) = 1 ∨
          (if isMax then aiTurn else -aiTurn) = -1 := by
        rcases hturn with rfl | rfl <;> cases isMax <;> simp
      cases isMax with
      | true =>
        simp only [if_pos rfl]
        simp only [if_pos rfl] at htw
        exact foldl_max_congr _ _ _ ⊥
          (key _ htw n₁ m₁ (by omega) (by omega) (by omega) false)
      | false =>
        simp only [Bool.false_eq_true, if_false]
        simp only [Bool.false_eq_true, if_false] at htw
        exact foldl_min_congr _ _ _ ⊤
          (key _ htw n₁ m₁ (by omega) (by omega) (by omega) true)

theorem countEmpty_le_64 (b : Board) : countEmpty b ≤ 64 :=
  le_trans (Finset.card_filter_le _ _) (by simp)

/-- **C4.** With a never-expiring budget: the alpha-beta, move-ordered
`_negamax` at the full window computes exactly the naive full-width
minimax value of the same depth and leaf evaluation; `_negamaxEndgame`
at its fuel bound computes exactly the true game value under terminal
disc-difference scoring; and that value is fuel-stable (any fuel of at
least `2·empty + 2` gives the same value). -/
theorem negamax_eq_minimax (cfg : SearchConfig) (aiTurn : Int) (phase : Phase)
    (haiTurn : aiTurn = 1 ∨ aiTurn = -1) (depth : Nat) (b : Board) (isMax : Bool)
    (t t' : Nat) :
    (negamax cfg none aiTurn phase depth b ⊥ ⊤ isMax t).1 =
      specMinimax cfg aiTurn phase depth b isMax ∧
    (negamaxEndgame none aiTurn endgameFuel b ⊥ ⊤ isMax t').1 =
      specGameValue aiTurn (2 * countEmpty b + 2) b isMax ∧
    (∀ fuel : Nat, 2 * countEmpty b + 2 ≤ fuel →
      specGameValue aiTurn fuel b isMax =
        specGameValue aiTurn (2 * countEmpty b + 2) b isMax) := by
  refine ⟨failSoft_full (negamax_failSoft cfg aiTurn phase depth b isMax ⊥ ⊤ t
    bot_lt_top), ?_, ?_⟩
  · rw [failSoft_full (negamaxEndgame_failSoft aiTurn endgameFuel b isMax ⊥ ⊤ t'
      bot_lt_top)]
    exact specGameValue_stable aiTurn haiTurn endgameFuel b isMax
      (2 * countEmpty b + 2)
      (by have := countEmpty_le_64 b; unfold endgameFuel; omega) (le_refl _)
  · intro fuel hf
    exact specGameValue_stable aiTurn haiTurn fuel b isMax
      (2 * countEmpty b + 2) hf (le_refl _)

theorem negamax_eq_minimax_witness :
    ((1 : Int) = 1 ∨ (1 : Int) = -1) ∧
    ((negamax (normalizeConfig modern1) none 1 Phase.endgame 2 startBoard ⊥ ⊤
        true 0).1 =
      specMinimax (normalizeConfig modern1) 1 Phase.endgame 2 startBoard true ∧
    (negamaxEndgame none 1 endgameFuel startBoard ⊥ ⊤ true 0).1 =
      specGameValue 1 (2 * countEmpty startBoard + 2) startBoard true ∧
    (∀ fuel : Nat, 2 * countEmpty startBoard + 2 ≤ fuel →
      specGameValue 1 fuel startBoard true =
        specGameValue 1 (2 * countEmpty startBoard + 2) startBoard true)) :=
  ⟨Or.inl rfl, negamax_eq_minimax (normalizeConfig modern1) 1 Phase.endgame
    (Or.inl rfl) 2 startBoard true 0 0⟩

end Reversi
